import Mathlib

/-!
# Verification of the sudoku solver (`solver.py`)

Shallow embedding of the solver: the `Field`/`Board` data model, the
incremental occupancy bookkeeping (`put` / `remove`), the setup pass, the
board checker (`verify`) and the recursive search (`step`).  Python machine
integers are modelled as `Nat` (values) and `Int` (occupancy marks, which
Python may drive below zero); Python's in-place mutation becomes explicit
board-passing; the unbounded recursion of `step` becomes a fuel-indexed
function returning `none` on fuel exhaustion (we prove fuel `82` always
suffices, since every recursive call is preceded by filling an empty cell).
-/

set_option maxHeartbeats 1000000
set_option maxRecDepth 1000000

namespace Sudoku

/-- A grid position, `i` = row, `j` = column (source class `Pos`). -/
structure Pos where
  i : Nat
  j : Nat
deriving DecidableEq, Repr

/-- One cell of the grid (source class `Field`): a value (`0` = empty) and,
for each candidate number `n` (used with `1 ≤ n ≤ 9`), an occupancy mark.
The source stores `marks` as a 9-element list indexed by `n - 1`; we key the
map by `n` directly. -/
@[ext]
structure Field where
  value : Nat
  marks : Nat → Int

/-- `Field.put_mark`: increment the mark of `n` (source `marks[number-1] += 1`). -/
def Field.put_mark (f : Field) (n : Nat) : Field :=
  { f with marks := fun m => if m = n then f.marks m + 1 else f.marks m }

/-- `Field.del_mark`: decrement the mark of `n`. -/
def Field.del_mark (f : Field) (n : Nat) : Field :=
  { f with marks := fun m => if m = n then f.marks m - 1 else f.marks m }

/-- `Field.get_mark`. -/
def Field.get_mark (f : Field) (n : Nat) : Int := f.marks n

/-- The board: a cell for every position (source `Board.fields`). -/
def Board := Pos → Field

/-- Replace the cell at `p` by `f` applied to it. -/
def updateCell (b : Board) (p : Pos) (f : Field → Field) : Board :=
  fun q => if q = p then f (b q) else b q

/-- The indices `0..8`, in order. -/
def nums9 : List Nat := [0, 1, 2, 3, 4, 5, 6, 7, 8]

/-- The candidate numbers `1..9`, in ascending order (Python `range(1, 10)`,
and the insertion order of the `counts` / `checklist` dicts). -/
def nums19 : List Nat := [1, 2, 3, 4, 5, 6, 7, 8, 9]

/-- The 81 positions in row-major order (the iteration order of
`enumerate(self.board.fields)`). -/
def allPositions : List Pos := nums9.flatMap fun i => nums9.map fun j => ⟨i, j⟩

/-- The cells of row `i`, left to right. -/
def rowCells (i : Nat) : List Pos := nums9.map fun j => ⟨i, j⟩

/-- The cells of column `j`, top to bottom. -/
def colCells (j : Nat) : List Pos := nums9.map fun i => ⟨i, j⟩

/-- The cells of the 3x3 box with top-left corner `(si, sj)`, row-major
(the `x` outer / `y` inner loops of the source). -/
def boxCells (si sj : Nat) : List Pos :=
  [⟨si, sj⟩, ⟨si, sj + 1⟩, ⟨si, sj + 2⟩,
   ⟨si + 1, sj⟩, ⟨si + 1, sj + 1⟩, ⟨si + 1, sj + 2⟩,
   ⟨si + 2, sj⟩, ⟨si + 2, sj + 1⟩, ⟨si + 2, sj + 2⟩]

/-- Top-left corners of the nine boxes, in the source's scan order
(`starti` outer over `(0,3,6)`, `startj` inner). -/
def boxStarts : List (Nat × Nat) :=
  [(0, 0), (0, 3), (0, 6), (3, 0), (3, 3), (3, 6), (6, 0), (6, 3), (6, 6)]

/-- `int(i / 3) * 3` of the source: the top-left coordinate of `k`'s band. -/
def boxStart (k : Nat) : Nat := k / 3 * 3

/-- Apply `put_mark v` to every cell in `L` (one marking loop of `Solver.put`). -/
def putMarks (b : Board) (L : List Pos) (v : Nat) : Board :=
  L.foldl (fun bb q => updateCell bb q (fun f => f.put_mark v)) b

/-- Apply `del_mark v` to every cell in `L` (one unmarking loop of `Solver.remove`). -/
def delMarks (b : Board) (L : List Pos) (v : Nat) : Board :=
  L.foldl (fun bb q => updateCell bb q (fun f => f.del_mark v)) b

/-- `Solver.put`: write `value` at `pos`, then mark the whole 3x3 box, the
whole row and the whole column (each loop includes `pos` itself). -/
def put (b : Board) (pos : Pos) (v : Nat) : Board :=
  let b1 := updateCell b pos (fun f => { f with value := v })
  let b2 := putMarks b1 (boxCells (boxStart pos.i) (boxStart pos.j)) v
  let b3 := putMarks b2 (rowCells pos.i) v
  putMarks b3 (colCells pos.j) v

/-- `Solver.remove`: read the current value at `pos`, reset it to `0`, then
unmark the box, row and column for that value. -/
def remove (b : Board) (pos : Pos) : Board :=
  let v := (b pos).value
  let b1 := updateCell b pos (fun f => { f with value := 0 })
  let b2 := delMarks b1 (boxCells (boxStart pos.i) (boxStart pos.j)) v
  let b3 := delMarks b2 (rowCells pos.i) v
  delMarks b3 (colCells pos.j) v

/-- `Solver.setup` (run by the constructor): `put` every pre-filled cell,
scanning row-major, to seed the occupancy marks. -/
def setup (b : Board) : Board :=
  allPositions.foldl (fun bb p => if (bb p).value = 0 then bb else put bb p ((bb p).value)) b

/-- `Board.is_filled`: every cell holds a nonzero value. -/
def isFilled (b : Board) : Bool :=
  allPositions.all fun p => (b p).value != 0

/-- Count the elements of `L` satisfying `f`. -/
def countIf (L : List α) (f : α → Prop) [DecidablePred f] : Nat :=
  match L with
  | [] => 0
  | x :: rest => (if f x then 1 else 0) + countIf rest f

/-- Number of occurrences of `p` in `L`. -/
def occCount (L : List Pos) (p : Pos) : Nat :=
  countIf L (fun q => q = p)

/-- The number of empty cells of the board. -/
def emptyCount (b : Board) : Nat :=
  countIf allPositions (fun p => (b p).value = 0)

/-- The empty cells of one constraint group where `n` is still unmarked: the
list `counts[n]` built by the forced-move scan of `Solver.step`, in cell scan
order. -/
def legalSpots (b : Board) (cells : List Pos) (n : Nat) : List Pos :=
  cells.filter fun p => (b p).value = 0 ∧ (b p).marks n = 0

/-- `for number, positions in counts.items(): if len(positions) == 1: ...` —
the first number (ascending) with exactly one legal empty spot in the group. -/
def firstSingle (b : Board) (cells : List Pos) : List Nat → Option (Pos × Nat)
  | [] => none
  | n :: rest =>
    match legalSpots b cells n with
    | [p] => some (p, n)
    | _ => firstSingle b cells rest

/-- The 27 constraint groups in the scan order of `Solver.step`: all nine 3x3
boxes (row-major), then the nine rows, then the nine columns. -/
def allGroupLists : List (List Pos) :=
  (boxStarts.map fun s => boxCells s.1 s.2) ++ (nums9.map rowCells) ++ (nums9.map colCells)

/-- Scan the groups in order; return the first forced move found. -/
def scanGroups (b : Board) : List (List Pos) → Option (Pos × Nat)
  | [] => none
  | g :: rest =>
    match firstSingle b g nums19 with
    | some r => some r
    | none => scanGroups b rest

/-- The forced-move scan of `Solver.step` (its first three loop nests). -/
def findForced (b : Board) : Option (Pos × Nat) :=
  scanGroups b allGroupLists

/-- `free_numbers` of `Solver.step`: start at 9 and subtract one per marked
number. -/
def freeCount (b : Board) (p : Pos) : Nat :=
  9 - countIf nums19 (fun n => (b p).marks n ≠ 0)

/-- The minimum-remaining-values fold of `Solver.step`: scan cells row-major,
keep `(min_free_numbers, min_pos)`, updating only on a strict improvement at
an empty cell.  The source initialises `min_pos = Pos(-1, -1)`; we carry
`none` instead (the source only dereferences `min_pos` when an update has
happened, which we prove). -/
def findMinAux (b : Board) : List Pos → Nat × Option Pos → Nat × Option Pos
  | [], st => st
  | p :: rest, (mf, mp) =>
    if (b p).value = 0 then
      if freeCount b p < mf then findMinAux b rest (freeCount b p, some p)
      else findMinAux b rest (mf, mp)
    else findMinAux b rest (mf, mp)

/-- The full MRV scan, starting from `min_free_numbers = 10`. -/
def findMin (b : Board) : Nat × Option Pos :=
  findMinAux b allPositions (10, none)

/-- `possible_numbers`: the still-unmarked numbers at `p`, ascending. -/
def possibleNumbers (b : Board) (p : Pos) : List Nat :=
  nums19.filter fun n => (b p).marks n = 0

/-- The brute-force loop of `Solver.step` over the candidate numbers of the
chosen cell: `put`, recurse via `stepF`, on failure `remove` and try the next
candidate; `false` when the candidates are exhausted. -/
def guessLoop (stepF : Board → Option (Bool × Board)) (b : Board) (pos : Pos) :
    List Nat → Option (Bool × Board)
  | [] => some (false, b)
  | n :: rest =>
    match stepF (put b pos n) with
    | none => none
    | some (true, b2) => some (true, b2)
    | some (false, b2) => guessLoop stepF (remove b2 pos) pos rest

/-- `Solver.step`, with explicit recursion fuel (`none` = fuel exhausted;
fuel `> emptyCount b` is proved sufficient) and the explicit `level`
parameter of the source (incremented on guesses, kept on forced moves). -/
def step : Nat → Nat → Board → Option (Bool × Board)
  | 0, _, _ => none
  | fuel + 1, level, b =>
    if isFilled b then some (true, b)
    else
      match findForced b with
      | some pn =>
        match step fuel level (put b pn.1 pn.2) with
        | none => none
        | some (true, b2) => some (true, b2)
        | some (false, b2) => some (false, remove b2 pn.1)
      | none =>
        if (findMin b).1 = 0 then some (false, b)
        else
          match (findMin b).2 with
          | none => some (false, b)
          | some pos => guessLoop (fun bd => step fuel (level + 1) bd) b pos (possibleNumbers b pos)

/-- `solver.step()` as called from the outside: level 0, and fuel `82`, which
exceeds the at most 81 empty cells and hence never runs out. -/
def solve (b : Board) : Option (Bool × Board) :=
  step 82 0 b

/-- First `some` in a list of options. -/
def firstSome : List (Option α) → Option α
  | [] => none
  | some x :: _ => some x
  | none :: rest => firstSome rest

/-- The duplicate scan of `Board.verify` over one group: walk the cells
keeping the `checklist` of seen numbers; report the message for the first
value already seen; otherwise return the final checklist. -/
def markGroup (b : Board) (mkDup : Nat → String) :
    List Pos → (Nat → Bool) → Except String (Nat → Bool)
  | [], seen => Except.ok seen
  | p :: rest, seen =>
    if (b p).value = 0 then markGroup b mkDup rest seen
    else if seen ((b p).value) then Except.error (mkDup ((b p).value))
    else markGroup b mkDup rest (fun n => if n = (b p).value then true else seen n)

/-- The missing-number scan of `Board.verify` over one group's checklist. -/
def missScan (seen : Nat → Bool) (mkMiss : Nat → String) : List Nat → Option String
  | [] => none
  | n :: rest => if seen n then missScan seen mkMiss rest else some (mkMiss n)

/-- One group check of `Board.verify`: duplicates first, then (when
`checkMissing`) missing numbers. -/
def checkGroup (b : Board) (checkMissing : Bool) (cells : List Pos)
    (mkDup : Nat → String) (mkMiss : Nat → String) : Option String :=
  match markGroup b mkDup cells (fun _ => false) with
  | Except.error e => some e
  | Except.ok seen => if checkMissing then missScan seen mkMiss nums19 else none

/-- Duplicate message of the box phase of `Board.verify`. -/
def boxDupMsg (si sj : Nat) (v : Nat) : String :=
  "Duplicate number " ++ toString v ++ " in 3x3 " ++ toString si ++ "," ++ toString sj

/-- Missing message of the box phase. -/
def boxMissMsg (si sj : Nat) (n : Nat) : String :=
  "3x3 at position " ++ toString si ++ "," ++ toString sj ++ " is missing number " ++ toString n

/-- Duplicate message of the row phase (the source leaves the number out). -/
def rowDupMsg (i : Nat) (_v : Nat) : String :=
  "Duplicate number in row " ++ toString i

/-- Missing message of the row phase. -/
def rowMissMsg (i : Nat) (n : Nat) : String :=
  "row " ++ toString i ++ " is missing number " ++ toString n

/-- Duplicate message of the column phase. -/
def colDupMsg (j : Nat) (_v : Nat) : String :=
  "Duplicate number in column " ++ toString j

/-- Missing message of the column phase. -/
def colMissMsg (j : Nat) (n : Nat) : String :=
  "column " ++ toString j ++ " is missing number " ++ toString n

/-- The box loop of `Board.verify`. -/
def checkBoxes (b : Board) (cm : Bool) : List (Nat × Nat) → Option String
  | [] => none
  | s :: rest =>
    match checkGroup b cm (boxCells s.1 s.2) (boxDupMsg s.1 s.2) (boxMissMsg s.1 s.2) with
    | some e => some e
    | none => checkBoxes b cm rest

/-- The row loop of `Board.verify`. -/
def checkRows (b : Board) (cm : Bool) : List Nat → Option String
  | [] => none
  | i :: rest =>
    match checkGroup b cm (rowCells i) (rowDupMsg i) (rowMissMsg i) with
    | some e => some e
    | none => checkRows b cm rest

/-- The column loop of `Board.verify`. -/
def checkCols (b : Board) (cm : Bool) : List Nat → Option String
  | [] => none
  | j :: rest =>
    match checkGroup b cm (colCells j) (colDupMsg j) (colMissMsg j) with
    | some e => some e
    | none => checkCols b cm rest

/-- `Board.verify(check_missing)`: boxes, then rows, then columns; `"valid"`
when no violation is found.  (The Python signature says `Optional[str]` but
every return value is a string.) -/
def verify (b : Board) (cm : Bool) : String :=
  match checkBoxes b cm boxStarts with
  | some e => e
  | none =>
    match checkRows b cm nums9 with
    | some e => e
    | none =>
      match checkCols b cm nums9 with
      | some e => e
      | none => "valid"

/-- A loader-produced board (`read_sudokus` writes only `value`s, leaving all
marks zero): row-major digit data, `0` elsewhere. -/
def boardOfRows (rows : List (List Nat)) : Board :=
  fun p => { value := ((rows.getD p.i []).getD p.j 0), marks := fun _ => 0 }

/-! ## Predicates about boards -/

/-- `p` is one of the 81 grid positions. -/
abbrev onGrid (p : Pos) : Prop := p.i < 9 ∧ p.j < 9

/-- `p` and `q` lie in the same 3x3 box. -/
abbrev sameBox (p q : Pos) : Prop :=
  boxStart p.i = boxStart q.i ∧ boxStart p.j = boxStart q.j

/-- `p` and `q` share a constraint group (box, row or column). -/
abbrev sameGroup (p q : Pos) : Prop := sameBox p q ∨ p.i = q.i ∨ p.j = q.j

/-- No two distinct cells of a common group hold the same nonzero value
(the uniqueness rule on the currently placed values). -/
def groupsOk (b : Board) : Prop :=
  ∀ c ∈ allPositions, ∀ d ∈ allPositions,
    c ≠ d → sameGroup c d → (b c).value = 0 ∨ (b c).value ≠ (b d).value

/-- All cell values are digits (`read_sudokus` parses single characters). -/
def valuesInRange (b : Board) : Prop := ∀ c ∈ allPositions, (b c).value ≤ 9

/-- All occupancy marks are zero (a freshly loaded board, before `setup`). -/
def marksZero (b : Board) : Prop :=
  ∀ c ∈ allPositions, ∀ n ∈ nums19, (b c).marks n = 0

/-- How many of the three marking loops of `put` at `p` touch the cell `c`:
its box loop, its row loop, and its column loop. -/
def groupMult (p c : Pos) : Nat :=
  (if boxStart c.i = boxStart p.i ∧ boxStart c.j = boxStart p.j then 1 else 0) +
  (if c.i = p.i ∧ c.j < 9 then 1 else 0) +
  (if c.j = p.j ∧ c.i < 9 then 1 else 0)

/-- Occupancy of `n` around `c` according to a value assignment `W`: how many
cells of `c`'s box, plus how many of its row, plus how many of its column,
hold `n` (a cell shared between groups is counted once per group). -/
def tcount (W : Pos → Nat) (c : Pos) (n : Nat) : Nat :=
  countIf (boxCells (boxStart c.i) (boxStart c.j)) (fun q => W q = n) +
  countIf (rowCells c.i) (fun q => W q = n) +
  countIf (colCells c.j) (fun q => W q = n)

/-- The bookkeeping invariant maintained by `setup` / `put` / `remove`:
every mark equals the occupancy count derived from the current values. -/
def marksSynced (b : Board) : Prop :=
  ∀ c ∈ allPositions, ∀ n ∈ nums19,
    (b c).marks n = (tcount (fun q => (b q).value) c n : Int)

/-- The state invariant of the search: marks synchronized, no uniqueness
violation among placed values, all values digits. -/
def searchInv (b : Board) : Prop :=
  marksSynced b ∧ groupsOk b ∧ valuesInRange b

instance instDecGroupsOk (b : Board) : Decidable (groupsOk b) := by
  unfold groupsOk; infer_instance

instance instDecValuesInRange (b : Board) : Decidable (valuesInRange b) := by
  unfold valuesInRange; infer_instance

instance instDecMarksZero (b : Board) : Decidable (marksZero b) := by
  unfold marksZero; infer_instance

instance instDecMarksSynced (b : Board) : Decidable (marksSynced b) := by
  unfold marksSynced; infer_instance

/-! ## Assignment/retraction sequences (for the occupancy invariant) -/

/-- A solver-style board operation: `assign` = `Solver.put`,
`retract` = `Solver.remove`. -/
inductive SOp where
  | assign (p : Pos) (v : Nat)
  | retract (p : Pos)

/-- Run one operation. -/
def applyOp (b : Board) : SOp → Board
  | SOp.assign p v => put b p v
  | SOp.retract p => remove b p

/-- Run a sequence of operations, left to right. -/
def applyOps (b : Board) : List SOp → Board
  | [] => b
  | o :: rest => applyOps (applyOp b o) rest

/-- The sequence only assigns numbers `1..9` to empty on-grid cells and only
retracts filled on-grid cells (the way `Solver.step` uses `put`/`remove`). -/
def legalOps (b : Board) : List SOp → Prop
  | [] => True
  | SOp.assign p v :: rest =>
    onGrid p ∧ (b p).value = 0 ∧ v ∈ nums19 ∧ legalOps (put b p v) rest
  | SOp.retract p :: rest =>
    onGrid p ∧ (b p).value ∈ nums19 ∧ legalOps (remove b p) rest

instance instDecLegalOps (b : Board) (ops : List SOp) : Decidable (legalOps b ops) :=
  match ops with
  | [] => isTrue trivial
  | SOp.assign p v :: rest =>
    have : Decidable (legalOps (put b p v) rest) := instDecLegalOps (put b p v) rest
    by unfold legalOps; infer_instance
  | SOp.retract p :: rest =>
    have : Decidable (legalOps (remove b p) rest) := instDecLegalOps (remove b p) rest
    by unfold legalOps; infer_instance

/-! ## Spec-side descriptions (for the refinement claims)

These definitions follow the wording of the specification, not the source
loops; the refinement theorems below relate them to the translated code. -/

/-- Spec: "the list of empty cells in that group where the number has zero
occupancy". -/
def specCandidates (b : Board) (g : List Pos) (n : Nat) : List Pos :=
  g.filter fun p => (b p).value = 0 ∧ (b p).get_mark n = 0

/-- Spec: a number of the group with *exactly one* candidate cell (first in
ascending order). -/
def forcedNumberSpec (b : Board) (g : List Pos) : Option Nat :=
  nums19.find? fun n => (specCandidates b g n).length == 1

/-- Spec: the first forced move over all boxes (row-major), then rows, then
columns. -/
def findForcedSpec (b : Board) : Option (Pos × Nat) :=
  allGroupLists.findSome? fun g =>
    (forcedNumberSpec b g).bind fun n =>
      ((specCandidates b g n).head?).map fun p => (p, n)

/-- Spec: the empty cells, scanned row-major. -/
def emptyCellsSpec (b : Board) : List Pos :=
  allPositions.filter fun p => (b p).value = 0

/-- Spec: the minimum number of remaining legal candidates over all empty
cells (`10` when the board is full). -/
def minFreeSpec (b : Board) : Nat :=
  (emptyCellsSpec b).foldl (fun m p => min m (freeCount b p)) 10

/-- Spec: the first empty cell (row-major) achieving that minimum. -/
def minPosSpec (b : Board) : Option Pos :=
  (emptyCellsSpec b).find? fun p => freeCount b p == minFreeSpec b

/-- Spec: "for each legal candidate number at that cell, in ascending
numeric order". -/
def possibleNumbersSpec (b : Board) (p : Pos) : List Nat :=
  (List.range' 1 9).filter fun n => (b p).get_mark n = 0

/-- A constraint group together with its identity (for `verify` messages). -/
inductive GroupId where
  | box (si sj : Nat)
  | row (i : Nat)
  | col (j : Nat)

/-- The cells of a group. -/
def GroupId.cells : GroupId → List Pos
  | box si sj => boxCells si sj
  | row i => rowCells i
  | col j => colCells j

/-- The duplicate message of a group. -/
def GroupId.dupMsg : GroupId → Nat → String
  | box si sj, v => boxDupMsg si sj v
  | row i, v => rowDupMsg i v
  | col j, v => colDupMsg j v

/-- The missing-number message of a group. -/
def GroupId.missMsg : GroupId → Nat → String
  | box si sj, n => boxMissMsg si sj n
  | row i, n => rowMissMsg i n
  | col j, n => colMissMsg j n

/-- The 27 groups in the documented scan order: boxes (row-major), rows,
columns. -/
def specGroups : List GroupId :=
  (boxStarts.map fun s => GroupId.box s.1 s.2) ++
  (nums9.map GroupId.row) ++ (nums9.map GroupId.col)

/-- Spec: the first value of the group that repeats an earlier nonzero value
(scanning the cells in order, remembering the values seen so far). -/
def specFirstDup (b : Board) : List Pos → List Nat → Option Nat
  | [], _ => none
  | p :: rest, seen =>
    if (b p).value = 0 then specFirstDup b rest seen
    else if (b p).value ∈ seen then some ((b p).value)
    else specFirstDup b rest ((b p).value :: seen)

/-- Spec: the first number `1..9` present nowhere in the group. -/
def specMissing (b : Board) (g : List Pos) : Option Nat :=
  nums19.find? fun n => !(g.any fun p => (b p).value == n)

/-- Spec: a group's first violation — its first duplicate, else (only when
`cm` requires completeness) its first missing number. -/
def specViolation (b : Board) (cm : Bool) (g : GroupId) : Option String :=
  match specFirstDup b g.cells [] with
  | some v => some (g.dupMsg v)
  | none => if cm then (specMissing b g.cells).map g.missMsg else none

/-- Spec-side checker: the first violation over the ordered groups, or
`"valid"`. -/
def verifySpec (b : Board) (cm : Bool) : String :=
  match specGroups.findSome? (specViolation b cm) with
  | some e => e
  | none => "valid"

/-! ## Concrete boards used by witnesses and counterexamples -/

/-- The empty puzzle. -/
def emptyBoard : Board := boardOfRows []

/-- A completely pre-filled board, every cell `1`: wildly invalid, yet
`is_filled` holds. -/
def allOnes : Board := boardOfRows (List.replicate 9 (List.replicate 9 1))

/-- A complete valid solution grid. -/
def validFull : Board := boardOfRows
  [[1, 2, 3, 4, 5, 6, 7, 8, 9],
   [4, 5, 6, 7, 8, 9, 1, 2, 3],
   [7, 8, 9, 1, 2, 3, 4, 5, 6],
   [2, 3, 4, 5, 6, 7, 8, 9, 1],
   [5, 6, 7, 8, 9, 1, 2, 3, 4],
   [8, 9, 1, 2, 3, 4, 5, 6, 7],
   [3, 4, 5, 6, 7, 8, 9, 1, 2],
   [6, 7, 8, 9, 1, 2, 3, 4, 5],
   [9, 1, 2, 3, 4, 5, 6, 7, 8]]

/-- A hand-built stuck search state: the only filled cell is a `5` at
`(8,8)`, and the empty cell `(0,0)` carries a mark for every number, so the
search fails on its first `step`. -/
def stuckBoard : Board := fun p =>
  { value := if p.i = 8 ∧ p.j = 8 then 5 else 0,
    marks := fun _ => if p.i = 0 ∧ p.j = 0 then 1 else 0 }

/-- Like `noCand`, but additionally violating uniqueness: two `5`s in
row 8. -/
def c1Board : Board := boardOfRows
  [[1, 2, 3, 4, 5, 6, 7, 8, 0],
   [0, 0, 0, 0, 0, 0, 0, 0, 9],
   [], [], [], [], [], [],
   [5, 5, 0, 0, 0, 0, 0, 0, 0]]

/-- Every cell holds a `1` except `(2,2)`, whose marks are all clear while
every other cell is fully marked: in the first scanned group (box `(0,0)`)
the number `1` has the single legal spot `(2,2)`. -/
def forcedBoard : Board := fun p =>
  { value := if p.i = 2 ∧ p.j = 2 then 0 else 1,
    marks := fun _ => if p.i = 2 ∧ p.j = 2 then 0 else 1 }

/-- A board whose cell `(0,0)` is pre-filled with `7`. -/
def sevenBoard : Board := boardOfRows [[7]]

/-- A board whose only pre-filled cell is a `5` at `(0,0)`. -/
def fiveBoard : Board := boardOfRows [[5]]

/-! # Theorems

## Counting and membership lemmas -/

theorem countIf_nil (f : α → Prop) [DecidablePred f] : countIf [] f = 0 := rfl

theorem countIf_cons (x : α) (L : List α) (f : α → Prop) [DecidablePred f] :
    countIf (x :: L) f = (if f x then 1 else 0) + countIf L f := rfl

theorem countIf_le_length (L : List α) (f : α → Prop) [DecidablePred f] :
    countIf L f ≤ L.length := by
  induction L with
  | nil => simp [countIf]
  | cons x rest ih => rw [countIf_cons, List.length_cons]; split <;> omega

theorem countIf_eq_zero {L : List α} {f : α → Prop} [DecidablePred f] :
    countIf L f = 0 ↔ ∀ x ∈ L, ¬ f x := by
  induction L with
  | nil => simp [countIf]
  | cons x rest ih =>
    rw [countIf_cons]
    by_cases h : f x <;> simp [h, ih]

theorem countIf_pos_of_mem {L : List α} {f : α → Prop} [DecidablePred f] {x : α}
    (hx : x ∈ L) (hf : f x) : 0 < countIf L f := by
  induction L with
  | nil => cases hx
  | cons y rest ih =>
    rw [countIf_cons]
    rcases List.mem_cons.mp hx with h | h
    · subst h; simp [hf]
    · have := ih h; omega

theorem countIf_congr {L : List α} {f g : α → Prop} [DecidablePred f] [DecidablePred g]
    (h : ∀ x ∈ L, f x ↔ g x) : countIf L f = countIf L g := by
  induction L with
  | nil => rfl
  | cons x rest ih =>
    rw [countIf_cons, countIf_cons, ih (fun y hy => h y (List.mem_cons_of_mem x hy))]
    have hx := h x (List.mem_cons_self x rest)
    by_cases hfx : f x
    · rw [if_pos hfx, if_pos (hx.mp hfx)]
    · rw [if_neg hfx, if_neg (fun hgx => hfx (hx.mpr hgx))]

/-- Changing a predicate at the single point `p` changes the count by the
occurrence count of `p` (stated additively to stay in `Nat`). -/
theorem countIf_pointwise [DecidableEq α] {f g : α → Prop} [DecidablePred f] [DecidablePred g]
    (p : α) (h : ∀ q, q ≠ p → (f q ↔ g q)) (L : List α) :
    countIf L f + (if g p then countIf L (fun q => q = p) else 0) =
      countIf L g + (if f p then countIf L (fun q => q = p) else 0) := by
  induction L with
  | nil => simp [countIf]
  | cons x rest ih =>
    rw [countIf_cons, countIf_cons, countIf_cons]
    by_cases hx : x = p
    · subst hx
      by_cases hf : f x <;> by_cases hg : g x <;> simp [hf, hg] at ih ⊢ <;> omega
    · have hfg := h x hx
      by_cases hf : f x
      · rw [if_pos hf, if_pos (hfg.mp hf), if_neg hx]
        by_cases hg : g p <;> simp [hg] at ih ⊢ <;> omega
      · rw [if_neg hf, if_neg (fun hgx => hf (hfg.mpr hgx)), if_neg hx]
        by_cases hg : g p <;> simp [hg] at ih ⊢ <;> omega

theorem occCount_nodup {L : List Pos} (hL : L.Nodup) (c : Pos) :
    occCount L c = if c ∈ L then 1 else 0 := by
  induction L with
  | nil => simp [occCount, countIf]
  | cons x rest ih =>
    rcases List.nodup_cons.mp hL with ⟨hx, hrest⟩
    rw [occCount, countIf_cons, ← occCount, ih hrest]
    by_cases hc : x = c
    · subst hc
      simp [hx]
    · rw [if_neg hc]
      by_cases hm : c ∈ rest
      · rw [if_pos hm, if_pos (List.mem_cons_of_mem x hm)]
      · rw [if_neg hm, if_neg (fun h => (List.mem_cons.mp h).elim (fun he => hc he.symm) hm)]

theorem mem_nums9 {k : Nat} : k ∈ nums9 ↔ k < 9 := by
  simp [nums9]; omega

theorem mem_nums19 {k : Nat} : k ∈ nums19 ↔ 1 ≤ k ∧ k ≤ 9 := by
  simp [nums19]; omega

theorem mem_allPositions {p : Pos} : p ∈ allPositions ↔ onGrid p := by
  simp only [allPositions, List.mem_flatMap, List.mem_map, mem_nums9]
  constructor
  · rintro ⟨i, hi, j, hj, rfl⟩; exact ⟨hi, hj⟩
  · rintro ⟨h1, h2⟩; exact ⟨p.i, h1, p.j, h2, rfl⟩

theorem mem_rowCells {q : Pos} {i : Nat} : q ∈ rowCells i ↔ q.i = i ∧ q.j < 9 := by
  simp only [rowCells, List.mem_map, mem_nums9]
  constructor
  · rintro ⟨j, hj, rfl⟩; exact ⟨rfl, hj⟩
  · rintro ⟨h1, h2⟩; exact ⟨q.j, h2, by rw [← h1]⟩

theorem mem_colCells {q : Pos} {j : Nat} : q ∈ colCells j ↔ q.j = j ∧ q.i < 9 := by
  simp only [colCells, List.mem_map, mem_nums9]
  constructor
  · rintro ⟨i, hi, rfl⟩; exact ⟨rfl, hi⟩
  · rintro ⟨h1, h2⟩; exact ⟨q.i, h2, by rw [← h1]⟩

theorem mem_boxCells {q : Pos} {si sj : Nat} :
    q ∈ boxCells si sj ↔ si ≤ q.i ∧ q.i < si + 3 ∧ sj ≤ q.j ∧ q.j < sj + 3 := by
  rcases q with ⟨qi, qj⟩
  simp [boxCells, Pos.mk.injEq]
  omega

theorem boxStart_mod (k : Nat) : boxStart k % 3 = 0 := by
  unfold boxStart; omega

theorem boxStart_eq_iff {k s : Nat} (hs : s % 3 = 0) :
    boxStart k = s ↔ s ≤ k ∧ k < s + 3 := by
  unfold boxStart; omega

theorem nodup_rowCells (i : Nat) : (rowCells i).Nodup := by
  simp [rowCells, nums9, Pos.mk.injEq, List.Nodup]

theorem nodup_colCells (j : Nat) : (colCells j).Nodup := by
  simp [colCells, nums9, Pos.mk.injEq, List.Nodup]

theorem nodup_boxCells (si sj : Nat) : (boxCells si sj).Nodup := by
  simp [boxCells, Pos.mk.injEq, List.Nodup] <;> omega

theorem nodup_allPositions : allPositions.Nodup := by decide

theorem occCount_boxCells {c : Pos} {si sj : Nat} (hsi : si % 3 = 0) (hsj : sj % 3 = 0) :
    occCount (boxCells si sj) c = if boxStart c.i = si ∧ boxStart c.j = sj then 1 else 0 := by
  rw [occCount_nodup (nodup_boxCells si sj)]
  by_cases h : boxStart c.i = si ∧ boxStart c.j = sj
  · rw [if_pos h, if_pos]
    rw [mem_boxCells]
    have h1 := (boxStart_eq_iff hsi).mp h.1
    have h2 := (boxStart_eq_iff hsj).mp h.2
    omega
  · rw [if_neg h, if_neg]
    rw [mem_boxCells]
    intro hm
    exact h ⟨(boxStart_eq_iff hsi).mpr ⟨hm.1, hm.2.1⟩, (boxStart_eq_iff hsj).mpr ⟨hm.2.2.1, hm.2.2.2⟩⟩

theorem occCount_rowCells {c : Pos} {i : Nat} :
    occCount (rowCells i) c = if c.i = i ∧ c.j < 9 then 1 else 0 := by
  rw [occCount_nodup (nodup_rowCells i)]
  by_cases h : c.i = i ∧ c.j < 9
  · rw [if_pos h, if_pos (mem_rowCells.mpr h)]
  · rw [if_neg h, if_neg (fun hm => h (mem_rowCells.mp hm))]

theorem occCount_colCells {c : Pos} {j : Nat} :
    occCount (colCells j) c = if c.j = j ∧ c.i < 9 then 1 else 0 := by
  rw [occCount_nodup (nodup_colCells j)]
  by_cases h : c.j = j ∧ c.i < 9
  · rw [if_pos h, if_pos (mem_colCells.mpr h)]
  · rw [if_neg h, if_neg (fun hm => h (mem_colCells.mp hm))]

/-! ## Reading through `put` and `remove` -/

theorem updateCell_read (b : Board) (p : Pos) (f : Field → Field) (c : Pos) :
    (updateCell b p f) c = if c = p then f (b c) else b c := rfl

theorem occCount_cons (q : Pos) (rest : List Pos) (c : Pos) :
    occCount (q :: rest) c = (if q = c then 1 else 0) + occCount rest c := rfl

theorem putMarks_value (b : Board) (L : List Pos) (v : Nat) (c : Pos) :
    ((putMarks b L v) c).value = (b c).value := by
  induction L generalizing b with
  | nil => rfl
  | cons q rest ih =>
    show ((putMarks (updateCell b q (fun f => f.put_mark v)) rest v) c).value = _
    rw [ih, updateCell_read]
    by_cases h : c = q <;> simp [h, Field.put_mark]

theorem putMarks_marks (b : Board) (L : List Pos) (v : Nat) (c : Pos) (n : Nat) :
    ((putMarks b L v) c).marks n =
      (b c).marks n + (if n = v then (occCount L c : Int) else 0) := by
  induction L generalizing b with
  | nil => simp [putMarks, occCount, countIf]
  | cons q rest ih =>
    show ((putMarks (updateCell b q (fun f => f.put_mark v)) rest v) c).marks n = _
    rw [ih, updateCell_read, occCount_cons]
    by_cases h : c = q
    · subst h
      by_cases hn : n = v <;>
        simp [Field.put_mark, hn] <;> push_cast <;> ring
    · have hqc : ¬ q = c := fun hq => h hq.symm
      by_cases hn : n = v <;>
        simp [h, hqc, hn] <;> push_cast <;> ring

theorem delMarks_value (b : Board) (L : List Pos) (v : Nat) (c : Pos) :
    ((delMarks b L v) c).value = (b c).value := by
  induction L generalizing b with
  | nil => rfl
  | cons q rest ih =>
    show ((delMarks (updateCell b q (fun f => f.del_mark v)) rest v) c).value = _
    rw [ih, updateCell_read]
    by_cases h : c = q <;> simp [h, Field.del_mark]

theorem delMarks_marks (b : Board) (L : List Pos) (v : Nat) (c : Pos) (n : Nat) :
    ((delMarks b L v) c).marks n =
      (b c).marks n - (if n = v then (occCount L c : Int) else 0) := by
  induction L generalizing b with
  | nil => simp [delMarks, occCount, countIf]
  | cons q rest ih =>
    show ((delMarks (updateCell b q (fun f => f.del_mark v)) rest v) c).marks n = _
    rw [ih, updateCell_read, occCount_cons]
    by_cases h : c = q
    · subst h
      by_cases hn : n = v <;>
        simp [Field.del_mark, hn] <;> push_cast <;> ring
    · have hqc : ¬ q = c := fun hq => h hq.symm
      by_cases hn : n = v <;>
        simp [h, hqc, hn] <;> push_cast <;> ring

theorem put_value (b : Board) (p : Pos) (v : Nat) (c : Pos) :
    ((put b p v) c).value = if c = p then v else (b c).value := by
  show ((putMarks (putMarks (putMarks (updateCell b p fun f => { f with value := v })
      (boxCells (boxStart p.i) (boxStart p.j)) v) (rowCells p.i) v) (colCells p.j) v) c).value = _
  rw [putMarks_value, putMarks_value, putMarks_value, updateCell_read]
  by_cases h : c = p <;> simp [h]

theorem put_marks (b : Board) (p : Pos) (v : Nat) (c : Pos) (n : Nat) :
    ((put b p v) c).marks n = (b c).marks n + (if n = v then (groupMult p c : Int) else 0) := by
  show ((putMarks (putMarks (putMarks (updateCell b p fun f => { f with value := v })
      (boxCells (boxStart p.i) (boxStart p.j)) v) (rowCells p.i) v) (colCells p.j) v) c).marks n = _
  rw [putMarks_marks, putMarks_marks, putMarks_marks]
  have hu : ((updateCell b p fun f => { f with value := v }) c).marks n = (b c).marks n := by
    rw [updateCell_read]; by_cases h : c = p <;> simp [h]
  rw [hu, occCount_boxCells (boxStart_mod p.i) (boxStart_mod p.j),
    occCount_rowCells, occCount_colCells]
  unfold groupMult
  by_cases hn : n = v
  · rw [if_pos hn, if_pos hn, if_pos hn, if_pos hn]; push_cast; ring
  · rw [if_neg hn, if_neg hn, if_neg hn, if_neg hn]; ring

theorem remove_value (b : Board) (p : Pos) (c : Pos) :
    ((remove b p) c).value = if c = p then 0 else (b c).value := by
  show ((delMarks (delMarks (delMarks (updateCell b p fun f => { f with value := 0 })
      (boxCells (boxStart p.i) (boxStart p.j)) ((b p).value)) (rowCells p.i) ((b p).value))
      (colCells p.j) ((b p).value)) c).value = _
  rw [delMarks_value, delMarks_value, delMarks_value, updateCell_read]
  by_cases h : c = p <;> simp [h]

theorem remove_marks (b : Board) (p : Pos) (c : Pos) (n : Nat) :
    ((remove b p) c).marks n =
      (b c).marks n - (if n = (b p).value then (groupMult p c : Int) else 0) := by
  show ((delMarks (delMarks (delMarks (updateCell b p fun f => { f with value := 0 })
      (boxCells (boxStart p.i) (boxStart p.j)) ((b p).value)) (rowCells p.i) ((b p).value))
      (colCells p.j) ((b p).value)) c).marks n = _
  rw [delMarks_marks, delMarks_marks, delMarks_marks]
  have hu : ((updateCell b p fun f => { f with value := 0 }) c).marks n = (b c).marks n := by
    rw [updateCell_read]; by_cases h : c = p <;> simp [h]
  rw [hu, occCount_boxCells (boxStart_mod p.i) (boxStart_mod p.j),
    occCount_rowCells, occCount_colCells]
  unfold groupMult
  by_cases hn : n = (b p).value
  · rw [if_pos hn, if_pos hn, if_pos hn, if_pos hn]; push_cast; ring
  · rw [if_neg hn, if_neg hn, if_neg hn, if_neg hn]; ring

theorem groupMult_comm {p c : Pos} (hp : onGrid p) (hc : onGrid c) :
    groupMult p c = groupMult c p := by
  obtain ⟨hp1, hp2⟩ := hp
  obtain ⟨hc1, hc2⟩ := hc
  unfold groupMult boxStart
  split_ifs <;> omega

theorem groupMult_self {p : Pos} (hp : onGrid p) : groupMult p p = 3 := by
  obtain ⟨hp1, hp2⟩ := hp
  unfold groupMult
  rw [if_pos ⟨rfl, rfl⟩, if_pos ⟨rfl, hp2⟩, if_pos ⟨rfl, hp1⟩]

/-- `remove` after `put` at an empty cell restores the board exactly. -/
theorem remove_put {b : Board} {p : Pos} (v : Nat) (hp : (b p).value = 0) :
    remove (put b p v) p = b := by
  have hval : ((put b p v) p).value = v := by rw [put_value, if_pos rfl]
  funext c
  ext
  · rw [remove_value, put_value]
    by_cases h : c = p
    · rw [if_pos h, h, hp]
    · rw [if_neg h, if_neg h]
  · rename_i n
    rw [remove_marks, put_marks, hval]
    by_cases hn : n = v
    · rw [if_pos hn]; ring
    · rw [if_neg hn]; ring

/-! ## Claims C2 and C3 -/

/-- Claim C2 (corrected): `assign(pos, v)` sets the cell at `pos` to `v`,
leaves every other cell's value unchanged, and increments a cell's
`occupancy[v]` once per marking loop of `pos` that touches it — once per
shared constraint group.  A cell sharing row and box with `pos` hence gains
exactly 2; but `pos` itself, lying in all three of its own groups, gains
exactly 3, not 0 as the claim states. -/
theorem c2_assign_occupancy (b : Board) (p : Pos) (v : Nat) (c : Pos) (n : Nat) :
    ((put b p v) p).value = v ∧
    (c ≠ p → ((put b p v) c).value = (b c).value) ∧
    ((put b p v) c).marks n = (b c).marks n + (if n = v then (groupMult p c : Int) else 0) ∧
    (onGrid p → groupMult p p = 3) := by
  refine ⟨?_, ?_, put_marks b p v c n, fun hp => groupMult_self hp⟩
  · rw [put_value, if_pos rfl]
  · intro hc
    rw [put_value, if_neg hc]

/-- Claim C2 witness. -/
theorem c2_assign_occupancy_witness :
    ((put emptyBoard ⟨0, 0⟩ 5) ⟨0, 0⟩).value = 5 ∧
    ((put emptyBoard ⟨0, 0⟩ 5) ⟨0, 1⟩).value = (emptyBoard ⟨0, 1⟩).value ∧
    ((put emptyBoard ⟨0, 0⟩ 5) ⟨0, 1⟩).marks 5 =
      (emptyBoard ⟨0, 1⟩).marks 5 + (if 5 = 5 then ((groupMult ⟨0, 0⟩ ⟨0, 1⟩ : Nat) : Int) else 0) ∧
    groupMult ⟨0, 0⟩ ⟨0, 0⟩ = 3 :=
  ⟨(c2_assign_occupancy emptyBoard ⟨0, 0⟩ 5 ⟨0, 1⟩ 5).1,
   (c2_assign_occupancy emptyBoard ⟨0, 0⟩ 5 ⟨0, 1⟩ 5).2.1 (by decide),
   (c2_assign_occupancy emptyBoard ⟨0, 0⟩ 5 ⟨0, 1⟩ 5).2.2.1,
   (c2_assign_occupancy emptyBoard ⟨0, 0⟩ 5 ⟨0, 1⟩ 5).2.2.2 (by decide)⟩

/-- Claim C2 counterexample: on the empty board, assigning `5` at `(0,0)`
raises `(0,0)`'s own `occupancy[5]` from 0 to 3, while the claim says the
assigned cell's counters are left unchanged. -/
theorem c2_counterexample :
    ((put emptyBoard ⟨0, 0⟩ 5) ⟨0, 0⟩).marks 5 = 3 ∧ (emptyBoard ⟨0, 0⟩).marks 5 = 0 := by
  decide

/-- Claim C3 (corrected): `assign(pos, v)` immediately followed by
`retract(pos)` restores every cell's value and every occupancy counter
exactly — provided the cell at `pos` was empty before the `assign` (the
retraction always writes value `0`, so a pre-filled cell would not get its
old value back). -/
theorem c3_assign_retract_roundtrip (b : Board) (p : Pos) (v : Nat)
    (hp : (b p).value = 0) : remove (put b p v) p = b :=
  remove_put v hp

/-- Claim C3 witness. -/
theorem c3_assign_retract_roundtrip_witness :
    (emptyBoard ⟨2, 3⟩).value = 0 ∧ remove (put emptyBoard ⟨2, 3⟩ 4) ⟨2, 3⟩ = emptyBoard :=
  ⟨rfl, c3_assign_retract_roundtrip emptyBoard ⟨2, 3⟩ 4 rfl⟩

/-- Claim C3 counterexample: on a board whose cell `(0,0)` is pre-filled
with `7`, `assign((0,0), 3)` followed by `retract((0,0))` leaves the cell at
`0`, not at its prior value `7`. -/
theorem c3_counterexample :
    ((remove (put sevenBoard ⟨0, 0⟩ 3) ⟨0, 0⟩) ⟨0, 0⟩).value = 0 ∧
    (sevenBoard ⟨0, 0⟩).value = 7 := by
  decide

/-! ## The occupancy bookkeeping invariant -/

theorem tcount_congr {W V : Pos → Nat} (h : ∀ q, W q = V q) (c : Pos) (n : Nat) :
    tcount W c n = tcount V c n := by
  have hbox : countIf (boxCells (boxStart c.i) (boxStart c.j)) (fun q => W q = n)
      = countIf (boxCells (boxStart c.i) (boxStart c.j)) (fun q => V q = n) :=
    countIf_congr (fun q _ => by simp only [h q])
  have hrow : countIf (rowCells c.i) (fun q => W q = n)
      = countIf (rowCells c.i) (fun q => V q = n) :=
    countIf_congr (fun q _ => by simp only [h q])
  have hcol : countIf (colCells c.j) (fun q => W q = n)
      = countIf (colCells c.j) (fun q => V q = n) :=
    countIf_congr (fun q _ => by simp only [h q])
  unfold tcount
  omega

/-- Changing a value map at the single point `p` changes each occupancy
count around `c` by the number of `c`-groups containing `p`. -/
theorem tcount_change {W V : Pos → Nat} {p : Pos} (h : ∀ q, q ≠ p → W q = V q)
    (c : Pos) (n : Nat) :
    tcount W c n + (if V p = n then groupMult c p else 0) =
      tcount V c n + (if W p = n then groupMult c p else 0) := by
  have h' : ∀ q, q ≠ p → ((fun q => W q = n) q ↔ (fun q => V q = n) q) :=
    fun q hq => by simp only [h q hq]
  have hb := countIf_pointwise (f := fun q => W q = n) (g := fun q => V q = n) p h'
    (boxCells (boxStart c.i) (boxStart c.j))
  have hr := countIf_pointwise (f := fun q => W q = n) (g := fun q => V q = n) p h'
    (rowCells c.i)
  have hc2 := countIf_pointwise (f := fun q => W q = n) (g := fun q => V q = n) p h'
    (colCells c.j)
  have hocc : countIf (boxCells (boxStart c.i) (boxStart c.j)) (fun q => q = p) +
      countIf (rowCells c.i) (fun q => q = p) + countIf (colCells c.j) (fun q => q = p)
      = groupMult c p := by
    show occCount (boxCells (boxStart c.i) (boxStart c.j)) p +
      occCount (rowCells c.i) p + occCount (colCells c.j) p = groupMult c p
    rw [occCount_boxCells (boxStart_mod c.i) (boxStart_mod c.j),
      occCount_rowCells, occCount_colCells]
    rfl
  unfold tcount
  split_ifs at hb hr hc2 ⊢ <;> omega

theorem tcount_zeroMap {c : Pos} {n : Nat} (hn : n ≠ 0) :
    tcount (fun _ => 0) c n = 0 := by
  unfold tcount
  rw [countIf_eq_zero.mpr (fun x _ h => hn h.symm),
    countIf_eq_zero.mpr (fun x _ h => hn h.symm),
    countIf_eq_zero.mpr (fun x _ h => hn h.symm)]

theorem onGrid_of_mem_boxCells {q c : Pos} (hc : onGrid c)
    (h : q ∈ boxCells (boxStart c.i) (boxStart c.j)) : onGrid q := by
  obtain ⟨h1, h2⟩ := hc
  rw [mem_boxCells] at h
  unfold boxStart at h
  constructor <;> omega

theorem onGrid_of_mem_rowCells {q c : Pos} (hc : onGrid c) (h : q ∈ rowCells c.i) :
    onGrid q := by
  obtain ⟨h1, h2⟩ := hc
  rw [mem_rowCells] at h
  constructor <;> omega

theorem onGrid_of_mem_colCells {q c : Pos} (hc : onGrid c) (h : q ∈ colCells c.j) :
    onGrid q := by
  obtain ⟨h1, h2⟩ := hc
  rw [mem_colCells] at h
  constructor <;> omega

/-- Occupancy counts only consult cells of `c`'s own groups, which are all
on-grid; so any two value maps agreeing on-grid give the same counts. -/
theorem tcount_congr_onGrid {W V : Pos → Nat} {c : Pos} (hc : onGrid c)
    (h : ∀ q, onGrid q → W q = V q) (n : Nat) :
    tcount W c n = tcount V c n := by
  have hbox : countIf (boxCells (boxStart c.i) (boxStart c.j)) (fun q => W q = n)
      = countIf (boxCells (boxStart c.i) (boxStart c.j)) (fun q => V q = n) :=
    countIf_congr (fun q hq => by simp only [h q (onGrid_of_mem_boxCells hc hq)])
  have hrow : countIf (rowCells c.i) (fun q => W q = n)
      = countIf (rowCells c.i) (fun q => V q = n) :=
    countIf_congr (fun q hq => by simp only [h q (onGrid_of_mem_rowCells hc hq)])
  have hcol : countIf (colCells c.j) (fun q => W q = n)
      = countIf (colCells c.j) (fun q => V q = n) :=
    countIf_congr (fun q hq => by simp only [h q (onGrid_of_mem_colCells hc hq)])
  unfold tcount
  omega

/-- `put` at an empty on-grid cell keeps the marks synchronized. -/
theorem marksSynced_put {b : Board} (hM : marksSynced b) {p : Pos} (hp : onGrid p)
    (hempty : (b p).value = 0) {v : Nat} (hv : v ∈ nums19) :
    marksSynced (put b p v) := by
  intro c hcmem n hnmem
  have hc : onGrid c := mem_allPositions.mp hcmem
  have hn1 : 1 ≤ n := (mem_nums19.mp hnmem).1
  rw [put_marks, hM c hcmem n hnmem]
  have hch := tcount_change (W := fun q => (b q).value)
    (V := fun q => ((put b p v) q).value)
    (p := p) (fun q hq => by simp only [put_value, if_neg hq]) c n
  have hWp : (b p).value ≠ n := by rw [hempty]; omega
  have hW2p : ((put b p v) p).value = v := by rw [put_value, if_pos rfl]
  rw [hW2p, if_neg hWp] at hch
  have hgm : groupMult p c = groupMult c p := groupMult_comm hp hc
  by_cases hvn : v = n
  · rw [if_pos hvn] at hch
    rw [if_pos hvn.symm, hgm]
    push_cast
    omega
  · rw [if_neg hvn] at hch
    rw [if_neg (fun h => hvn h.symm)]
    push_cast
    omega

/-- `remove` at a filled on-grid cell keeps the marks synchronized. -/
theorem marksSynced_remove {b : Board} (hM : marksSynced b) {p : Pos} (hp : onGrid p)
    (hfill : (b p).value ∈ nums19) : marksSynced (remove b p) := by
  intro c hcmem n hnmem
  have hc : onGrid c := mem_allPositions.mp hcmem
  rw [remove_marks, hM c hcmem n hnmem]
  have hch := tcount_change (W := fun q => (b q).value)
    (V := fun q => ((remove b p) q).value)
    (p := p) (fun q hq => by simp only [remove_value, if_neg hq]) c n
  have hn1 : 1 ≤ n := (mem_nums19.mp hnmem).1
  have hW2p : ((remove b p) p).value = 0 := by rw [remove_value, if_pos rfl]
  have hW2n : ((remove b p) p).value ≠ n := by rw [hW2p]; omega
  rw [if_neg hW2n] at hch
  have hgm : groupMult p c = groupMult c p := groupMult_comm hp hc
  by_cases hvn : (b p).value = n
  · rw [if_pos hvn] at hch
    rw [if_pos hvn.symm, hgm]
    push_cast
    omega
  · rw [if_neg hvn] at hch
    rw [if_neg (fun h => hvn h.symm)]
    push_cast
    omega

/-- The setup fold never changes any value. -/
theorem setupFold_value (L : List Pos) (b : Board) (c : Pos) :
    ((L.foldl (fun bb p => if (bb p).value = 0 then bb else put bb p ((bb p).value)) b) c).value
      = (b c).value := by
  induction L generalizing b with
  | nil => rfl
  | cons p rest ih =>
    show ((rest.foldl _ (if (b p).value = 0 then b else put b p ((b p).value))) c).value = _
    rw [ih]
    by_cases h : (b p).value = 0
    · rw [if_pos h]
    · rw [if_neg h, put_value]
      by_cases hc : c = p
      · rw [if_pos hc, hc]
      · rw [if_neg hc]

theorem setup_value (b : Board) (c : Pos) : ((setup b) c).value = (b c).value :=
  setupFold_value allPositions b c

/-- Marks accumulated by the setup fold over a duplicate-free list `L` of
on-grid cells: exactly the occupancy counts of the values restricted to
`L`. -/
theorem setupFold_marks (L : List Pos) (hnd : L.Nodup) (hgrid : ∀ p ∈ L, onGrid p)
    (b : Board) (c : Pos) (hc : onGrid c) (n : Nat) (hn : n ∈ nums19) :
    ((L.foldl (fun bb p => if (bb p).value = 0 then bb else put bb p ((bb p).value)) b) c).marks n
      = (b c).marks n +
        (tcount (fun q => if q ∈ L then (b q).value else 0) c n : Int) := by
  have hn1 : 1 ≤ n := (mem_nums19.mp hn).1
  induction L generalizing b with
  | nil =>
    rw [tcount_congr (V := fun _ => 0) (fun q => by simp)]
    rw [tcount_zeroMap (by omega)]
    simp [List.foldl]
  | cons p rest ih =>
    obtain ⟨hpmem, hndrest⟩ := List.nodup_cons.mp hnd
    have hpgrid : onGrid p := hgrid p (List.mem_cons_self p rest)
    have hgridrest : ∀ q ∈ rest, onGrid q := fun q hq => hgrid q (List.mem_cons_of_mem p hq)
    show ((rest.foldl _ (if (b p).value = 0 then b else put b p ((b p).value))) c).marks n = _
    by_cases h : (b p).value = 0
    · rw [if_pos h, ih hndrest hgridrest b]
      have : tcount (fun q => if q ∈ rest then (b q).value else 0) c n =
          tcount (fun q => if q ∈ p :: rest then (b q).value else 0) c n := by
        apply tcount_congr
        intro q
        by_cases hq : q = p
        · subst hq
          simp [hpmem, h]
        · simp [List.mem_cons, hq]
      rw [this]
    · rw [if_neg h, ih hndrest hgridrest (put b p ((b p).value))]
      have hvals : ∀ q, ((put b p ((b p).value)) q).value = (b q).value := by
        intro q
        rw [put_value]
        by_cases hq : q = p
        · rw [if_pos hq, hq]
        · rw [if_neg hq]
      rw [put_marks]
      rw [tcount_congr (V := fun q => if q ∈ rest then (b q).value else 0)
        (fun q => by by_cases hq : q ∈ rest <;> simp [hq, hvals q])]
      have hch := tcount_change (W := fun q => if q ∈ rest then (b q).value else 0)
        (V := fun q => if q ∈ p :: rest then (b q).value else 0)
        (p := p) (fun q hq => by simp [List.mem_cons, hq]) c n
      rw [if_neg hpmem, if_pos (List.mem_cons_self p rest)] at hch
      have hz : ¬ ((0 : Nat) = n) := by omega
      rw [if_neg hz] at hch
      have hgm : groupMult p c = groupMult c p := groupMult_comm hpgrid hc
      by_cases hvn : (b p).value = n
      · rw [if_pos hvn] at hch
        rw [if_pos hvn.symm, hgm]
        push_cast
        omega
      · rw [if_neg hvn] at hch
        rw [if_neg (fun hx => hvn hx.symm)]
        push_cast
        omega

/-- After the setup pass over a freshly loaded board, the marks are exactly
the occupancy counts of the loaded values: the bookkeeping invariant holds. -/
theorem marksSynced_setup {b : Board} (hz : marksZero b) : marksSynced (setup b) := by
  intro c hcmem n hnmem
  have hc : onGrid c := mem_allPositions.mp hcmem
  have h : ((setup b) c).marks n = (b c).marks n +
      (tcount (fun q => if q ∈ allPositions then (b q).value else 0) c n : Int) := by
    unfold setup
    exact setupFold_marks allPositions nodup_allPositions
      (fun p hp => mem_allPositions.mp hp) b c hc n hnmem
  have h1 : tcount (fun q => if q ∈ allPositions then (b q).value else 0) c n =
      tcount (fun q => ((setup b) q).value) c n := by
    apply tcount_congr_onGrid hc
    intro q hq
    rw [if_pos (mem_allPositions.mpr hq), setup_value]
  rw [h, hz c hcmem n hnmem, h1]
  omega

/-- At an empty cell, synchronized marks mean: `occupancy[n] = 0` iff no
other cell of a common group holds `n`. -/
theorem marksSynced_apply {b : Board} (hM : marksSynced b) {c : Pos}
    (hc : c ∈ allPositions) {n : Nat} (hn : n ∈ nums19) (hempty : (b c).value = 0) :
    ((b c).marks n = 0 ↔
      ∀ d ∈ allPositions, d ≠ c → sameGroup d c → (b d).value ≠ n) := by
  have hcg : onGrid c := mem_allPositions.mp hc
  have hn1 : 1 ≤ n := (mem_nums19.mp hn).1
  rw [hM c hc n hn]
  have hcast : ((tcount (fun q => (b q).value) c n : Int) = 0 ↔
      tcount (fun q => (b q).value) c n = 0) := by push_cast; omega
  rw [hcast]
  unfold tcount
  beta_reduce
  constructor
  · intro h d hd hdc hg
    have hbz : countIf (boxCells (boxStart c.i) (boxStart c.j))
        (fun q => (b q).value = n) = 0 := by omega
    have hrz : countIf (rowCells c.i) (fun q => (b q).value = n) = 0 := by omega
    have hcz : countIf (colCells c.j) (fun q => (b q).value = n) = 0 := by omega
    have hdg : onGrid d := mem_allPositions.mp hd
    rcases hg with hbox | hrow | hcol
    · refine countIf_eq_zero.mp hbz d ?_
      rw [mem_boxCells]
      have h1 := (boxStart_eq_iff (boxStart_mod c.i)).mp hbox.1
      have h2 := (boxStart_eq_iff (boxStart_mod c.j)).mp hbox.2
      omega
    · refine countIf_eq_zero.mp hrz d ?_
      rw [mem_rowCells]
      exact ⟨hrow, hdg.2⟩
    · refine countIf_eq_zero.mp hcz d ?_
      rw [mem_colCells]
      exact ⟨hcol, hdg.1⟩
  · intro h
    have hval : (b c).value ≠ n := by omega
    have hb : countIf (boxCells (boxStart c.i) (boxStart c.j))
        (fun q => (b q).value = n) = 0 := by
      refine countIf_eq_zero.mpr fun q hq hvq => ?_
      by_cases hqc : q = c
      · exact hval (hqc ▸ hvq)
      · have hqg : onGrid q := onGrid_of_mem_boxCells hcg hq
        rw [mem_boxCells] at hq
        refine h q (mem_allPositions.mpr hqg) hqc (Or.inl ⟨?_, ?_⟩) hvq
        · exact (boxStart_eq_iff (boxStart_mod c.i)).mpr ⟨hq.1, hq.2.1⟩
        · exact (boxStart_eq_iff (boxStart_mod c.j)).mpr ⟨hq.2.2.1, hq.2.2.2⟩
    have hr : countIf (rowCells c.i) (fun q => (b q).value = n) = 0 := by
      refine countIf_eq_zero.mpr fun q hq hvq => ?_
      by_cases hqc : q = c
      · exact hval (hqc ▸ hvq)
      · have hqg : onGrid q := onGrid_of_mem_rowCells hcg hq
        rw [mem_rowCells] at hq
        exact h q (mem_allPositions.mpr hqg) hqc (Or.inr (Or.inl hq.1)) hvq
    have hc2 : countIf (colCells c.j) (fun q => (b q).value = n) = 0 := by
      refine countIf_eq_zero.mpr fun q hq hvq => ?_
      by_cases hqc : q = c
      · exact hval (hqc ▸ hvq)
      · have hqg : onGrid q := onGrid_of_mem_colCells hcg hq
        rw [mem_colCells] at hq
        exact h q (mem_allPositions.mpr hqg) hqc (Or.inr (Or.inr hq.1)) hvq
    omega

/-- Synchronization is preserved along any legal assign/retract sequence. -/
theorem marksSynced_applyOps : ∀ (ops : List SOp) (b : Board),
    marksSynced b → legalOps b ops → marksSynced (applyOps b ops)
  | [], _, hM, _ => hM
  | SOp.assign p v :: rest, b, hM, hops => by
    obtain ⟨hp, hempty, hv, hrest⟩ := hops
    exact marksSynced_applyOps rest (put b p v) (marksSynced_put hM hp hempty hv) hrest
  | SOp.retract p :: rest, b, hM, hops => by
    obtain ⟨hp, hfill, hrest⟩ := hops
    exact marksSynced_applyOps rest (remove b p) (marksSynced_remove hM hp hfill) hrest

/-! ## Claim C6 -/

/-- Claim C6 (corrected): after the setup pass over a loaded board, and
throughout any legal sequence of assign/retract operations, every **empty**
cell satisfies: `occupancy[n] = 0` iff no other cell sharing a row, column
or box holds `n`.  (As stated over every cell the claim fails: a filled
cell's own value keeps occupancy 3 even with no conflicting neighbour.) -/
theorem c6_occupancy_invariant (b : Board) (ops : List SOp) (c : Pos) (n : Nat)
    (hz : marksZero b) (hops : legalOps (setup b) ops) (hc : c ∈ allPositions)
    (hn : n ∈ nums19) (hempty : ((applyOps (setup b) ops) c).value = 0) :
    ((applyOps (setup b) ops) c).marks n = 0 ↔
      ∀ d ∈ allPositions, d ≠ c → sameGroup d c →
        ((applyOps (setup b) ops) d).value ≠ n :=
  marksSynced_apply
    (marksSynced_applyOps ops (setup b) (marksSynced_setup hz) hops) hc hn hempty

/-- Claim C6 witness: load a `5` at `(0,0)`, set up, then assign `3` at
`(1,1)`; the invariant holds at the empty cell `(0,1)` for `n = 5`. -/
theorem c6_occupancy_invariant_witness :
    marksZero fiveBoard ∧
    legalOps (setup fiveBoard) [SOp.assign ⟨1, 1⟩ 3] ∧
    ((applyOps (setup fiveBoard) [SOp.assign ⟨1, 1⟩ 3]) ⟨0, 1⟩).value = 0 ∧
    (((applyOps (setup fiveBoard) [SOp.assign ⟨1, 1⟩ 3]) ⟨0, 1⟩).marks 5 = 0 ↔
      ∀ d ∈ allPositions, d ≠ ⟨0, 1⟩ → sameGroup d ⟨0, 1⟩ →
        ((applyOps (setup fiveBoard) [SOp.assign ⟨1, 1⟩ 3]) d).value ≠ 5) :=
  ⟨by decide, by decide, by decide,
   c6_occupancy_invariant fiveBoard [SOp.assign ⟨1, 1⟩ 3] ⟨0, 1⟩ 5
     (by decide) (by decide) (by decide) (by decide) (by decide)⟩

/-- Claim C6 counterexample: after setting up a board whose only entry is a
`5` at `(0,0)`, the cell `(0,0)` itself has `occupancy[5] = 3 ≠ 0` although
no *other* cell holds a `5` — the claimed equivalence fails at filled
cells. -/
theorem c6_counterexample :
    ¬ (((setup fiveBoard) ⟨0, 0⟩).marks 5 = 0 ↔
      ∀ d ∈ allPositions, d ≠ ⟨0, 0⟩ → sameGroup d ⟨0, 0⟩ →
        ((setup fiveBoard) d).value ≠ 5) := by
  decide

/-! ## Properties of the scans in `Solver.step` -/

theorem isFilled_iff {b : Board} :
    isFilled b = true ↔ ∀ p ∈ allPositions, (b p).value ≠ 0 := by
  simp [isFilled, List.all_eq_true, bne_iff_ne]

theorem mem_legalSpots {b : Board} {cells : List Pos} {n : Nat} {q : Pos} :
    q ∈ legalSpots b cells n ↔ q ∈ cells ∧ (b q).value = 0 ∧ (b q).marks n = 0 := by
  simp [legalSpots, List.mem_filter]

theorem firstSingle_sound : ∀ (nums : List Nat) {b : Board} {cells : List Pos}
    {p : Pos} {n : Nat}, firstSingle b cells nums = some (p, n) →
    n ∈ nums ∧ legalSpots b cells n = [p]
  | [], _, _, _, _, h => by simp [firstSingle] at h
  | m :: rest, b, cells, p, n, h => by
    rw [firstSingle] at h
    cases hls : legalSpots b cells m with
    | nil =>
      rw [hls] at h
      have := firstSingle_sound rest h
      exact ⟨List.mem_cons_of_mem m this.1, this.2⟩
    | cons q qs =>
      cases qs with
      | nil =>
        rw [hls] at h
        simp only [Option.some.injEq, Prod.mk.injEq] at h
        obtain ⟨h1, h2⟩ := h
        subst h1
        subst h2
        exact ⟨List.mem_cons_self _ _, hls⟩
      | cons q2 qs2 =>
        rw [hls] at h
        have := firstSingle_sound rest h
        exact ⟨List.mem_cons_of_mem m this.1, this.2⟩

theorem scanGroups_sound : ∀ (Ls : List (List Pos)) {b : Board} {p : Pos} {n : Nat},
    scanGroups b Ls = some (p, n) → ∃ g ∈ Ls, firstSingle b g nums19 = some (p, n)
  | [], _, _, _, h => by simp [scanGroups] at h
  | g :: rest, b, p, n, h => by
    rw [scanGroups] at h
    cases hfs : firstSingle b g nums19 with
    | none =>
      rw [hfs] at h
      obtain ⟨g2, hg2, hfs2⟩ := scanGroups_sound rest h
      exact ⟨g2, List.mem_cons_of_mem g hg2, hfs2⟩
    | some r =>
      rw [hfs] at h
      cases h
      exact ⟨g, List.mem_cons_self g rest, hfs⟩

theorem allGroupLists_onGrid :
    ∀ g ∈ allGroupLists, ∀ p ∈ g, p ∈ allPositions := by
  decide

/-- What a reported forced move guarantees: an on-grid empty cell whose mark
for the (in-range) number is clear. -/
theorem findForced_sound {b : Board} {p : Pos} {n : Nat}
    (h : findForced b = some (p, n)) :
    p ∈ allPositions ∧ (b p).value = 0 ∧ (b p).marks n = 0 ∧ n ∈ nums19 := by
  obtain ⟨g, hg, hfs⟩ := scanGroups_sound allGroupLists h
  obtain ⟨hn, hls⟩ := firstSingle_sound nums19 hfs
  have hp : p ∈ legalSpots b g n := by rw [hls]; exact List.mem_singleton.mpr rfl
  obtain ⟨hpg, hval, hmark⟩ := mem_legalSpots.mp hp
  exact ⟨allGroupLists_onGrid g hg p hpg, hval, hmark, hn⟩

theorem findMinAux_sound : ∀ (L : List Pos) {b : Board} {mf : Nat} {mp : Option Pos},
    (∀ {q : Pos}, mp = some q → q ∈ allPositions ∧ (b q).value = 0) →
    (∀ p ∈ L, p ∈ allPositions) →
    ∀ {q2 : Pos}, (findMinAux b L (mf, mp)).2 = some q2 →
      q2 ∈ allPositions ∧ (b q2).value = 0
  | [], _, _, _, hmp, _, _, h => hmp h
  | p :: rest, b, mf, mp, hmp, hL, q2, h => by
    rw [findMinAux] at h
    have hpmem := hL p (List.mem_cons_self p rest)
    have hrest := fun x hx => hL x (List.mem_cons_of_mem p hx)
    by_cases hv : (b p).value = 0
    · rw [if_pos hv] at h
      by_cases hlt : freeCount b p < mf
      · rw [if_pos hlt] at h
        exact findMinAux_sound rest (fun he => by cases he; exact ⟨hpmem, hv⟩) hrest h
      · rw [if_neg hlt] at h
        exact findMinAux_sound rest hmp hrest h
    · rw [if_neg hv] at h
      exact findMinAux_sound rest hmp hrest h

theorem findMin_sound {b : Board} {q : Pos} (h : (findMin b).2 = some q) :
    q ∈ allPositions ∧ (b q).value = 0 :=
  findMinAux_sound allPositions (fun he => by cases he) (fun _ hp => hp) h

theorem findMinAux_fst_le : ∀ (L : List Pos) (b : Board) (mf : Nat) (mp : Option Pos),
    (findMinAux b L (mf, mp)).1 ≤ mf
  | [], _, _, _ => Nat.le_refl _
  | p :: rest, b, mf, mp => by
    rw [findMinAux]
    by_cases hv : (b p).value = 0
    · rw [if_pos hv]
      by_cases hlt : freeCount b p < mf
      · rw [if_pos hlt]
        exact Nat.le_trans (findMinAux_fst_le rest b _ _) (Nat.le_of_lt hlt)
      · rw [if_neg hlt]
        exact findMinAux_fst_le rest b mf mp
    · rw [if_neg hv]
      exact findMinAux_fst_le rest b mf mp

/-- A candidate-free empty cell drives the MRV minimum to zero. -/
theorem findMinAux_zero_of_dead : ∀ (L : List Pos) {b : Board} {p : Pos},
    p ∈ L → (b p).value = 0 → freeCount b p = 0 →
    ∀ (mf : Nat) (mp : Option Pos), (findMinAux b L (mf, mp)).1 = 0
  | [], _, _, hmem, _, _, _, _ => absurd hmem (List.not_mem_nil _)
  | q :: rest, b, p, hmem, hval, hfree, mf, mp => by
    rw [findMinAux]
    rcases List.mem_cons.mp hmem with he | hmem2
    · subst he
      rw [if_pos hval, hfree]
      by_cases hlt : 0 < mf
      · rw [if_pos hlt]
        exact Nat.le_antisymm (findMinAux_fst_le rest b 0 _) (Nat.zero_le _)
      · rw [if_neg hlt]
        have : mf = 0 := by omega
        subst this
        exact Nat.le_antisymm (findMinAux_fst_le rest b 0 mp) (Nat.zero_le _)
    · by_cases hv : (b q).value = 0
      · rw [if_pos hv]
        by_cases hlt : freeCount b q < mf
        · rw [if_pos hlt]
          exact findMinAux_zero_of_dead rest hmem2 hval hfree _ _
        · rw [if_neg hlt]
          exact findMinAux_zero_of_dead rest hmem2 hval hfree _ _
      · rw [if_neg hv]
        exact findMinAux_zero_of_dead rest hmem2 hval hfree _ _

theorem countIf_eq_length {L : List α} {f : α → Prop} [DecidablePred f]
    (h : ∀ x ∈ L, f x) : countIf L f = L.length := by
  induction L with
  | nil => rfl
  | cons x rest ih =>
    rw [countIf_cons, if_pos (h x (List.mem_cons_self x rest)), List.length_cons,
      ih (fun y hy => h y (List.mem_cons_of_mem x hy))]
    omega

theorem freeCount_zero {b : Board} {p : Pos}
    (h : ∀ n ∈ nums19, (b p).marks n ≠ 0) : freeCount b p = 0 := by
  unfold freeCount
  rw [countIf_eq_length h]
  rfl

theorem mem_possibleNumbers {b : Board} {p : Pos} {n : Nat} :
    n ∈ possibleNumbers b p ↔ n ∈ nums19 ∧ (b p).marks n = 0 := by
  simp [possibleNumbers, List.mem_filter]

/-! ## `emptyCount` bookkeeping -/

theorem put_emptyCount {b : Board} {p : Pos} {v : Nat} (hp : p ∈ allPositions)
    (hempty : (b p).value = 0) (hv : v ≠ 0) :
    emptyCount (put b p v) + 1 = emptyCount b := by
  have h := countIf_pointwise (f := fun q => ((put b p v) q).value = 0)
    (g := fun q => (b q).value = 0) p
    (fun q hq => by simp only [put_value, if_neg hq]) allPositions
  have hocc : countIf allPositions (fun q => q = p) = 1 := by
    show occCount allPositions p = 1
    rw [occCount_nodup nodup_allPositions, if_pos hp]
  have hfp : ((put b p v) p).value = v := by rw [put_value, if_pos rfl]
  rw [hocc, if_pos hempty, if_neg (by rw [hfp]; exact hv)] at h
  unfold emptyCount
  omega

theorem emptyCount_pos {b : Board} {p : Pos} (hp : p ∈ allPositions)
    (hempty : (b p).value = 0) : 0 < emptyCount b :=
  countIf_pos_of_mem hp hempty

theorem emptyCount_le {b : Board} : emptyCount b ≤ 81 := by
  have h := countIf_le_length allPositions (fun p => (b p).value = 0)
  have : allPositions.length = 81 := by decide
  unfold emptyCount
  omega

/-! ## Restoration on failure (claim C4) -/

/-- The candidate loop restores the board whenever it fails, provided the
recursive step does. -/
theorem guessLoop_false {stepF : Board → Option (Bool × Board)}
    (hstep : ∀ bb bb2, stepF bb = some (false, bb2) → bb2 = bb) :
    ∀ (cands : List Nat) (b : Board) (pos : Pos), (b pos).value = 0 →
    ∀ {b2 : Board}, guessLoop stepF b pos cands = some (false, b2) → b2 = b
  | [], b, pos, _, b2, h => by
    rw [guessLoop] at h
    cases h
    rfl
  | n :: rest, b, pos, hempty, b2, h => by
    rw [guessLoop] at h
    split at h
    · cases h
    · simp at h
    · rename_i bb hs
      have hbb : bb = put b pos n := hstep _ _ hs
      rw [hbb, remove_put n hempty] at h
      exact guessLoop_false hstep rest b pos hempty h

/-- `Solver.step` restores the board exactly whenever it returns false. -/
theorem step_false_restores : ∀ (fuel level : Nat) (b : Board) {b2 : Board},
    step fuel level b = some (false, b2) → b2 = b := by
  intro fuel
  induction fuel with
  | zero => intro level b b2 h; rw [step] at h; cases h
  | succ fuel ih =>
    intro level b b2 h
    rw [step] at h
    split at h
    · simp at h
    · split at h
      · rename_i pn heq
        obtain ⟨hpos, hval, hmark, hn⟩ := findForced_sound heq
        split at h
        · cases h
        · simp at h
        · rename_i bb hrec
          simp only [Option.some.injEq, Prod.mk.injEq, true_and] at h
          have hb3 : bb = put b pn.1 pn.2 := ih level _ hrec
          rw [← h, hb3, remove_put pn.2 hval]
      · split at h
        · simp only [Option.some.injEq, Prod.mk.injEq, true_and] at h
          exact h.symm
        · split at h
          · simp only [Option.some.injEq, Prod.mk.injEq, true_and] at h
            exact h.symm
          · rename_i pos hpos2
            have hsound := findMin_sound hpos2
            exact guessLoop_false (fun bb bb2 hb => ih (level + 1) bb hb)
              (possibleNumbers b pos) b pos hsound.2 h

/-! ## Pre-filled cells are never touched (claim C10) -/

/-- The candidate loop never changes a cell that was filled at its entry. -/
theorem guessLoop_preserves {stepF : Board → Option (Bool × Board)}
    (hstepR : ∀ bb bb2, stepF bb = some (false, bb2) → bb2 = bb)
    (hstepP : ∀ bb r bb2, stepF bb = some (r, bb2) →
      ∀ c, (bb c).value ≠ 0 → (bb2 c).value = (bb c).value) :
    ∀ (cands : List Nat) (b : Board) (pos : Pos), (b pos).value = 0 →
    ∀ {r : Bool} {b2 : Board}, guessLoop stepF b pos cands = some (r, b2) →
    ∀ c, (b c).value ≠ 0 → (b2 c).value = (b c).value
  | [], b, pos, _, r, b2, h => by
    rw [guessLoop] at h
    cases h
    intro c _
    rfl
  | n :: rest, b, pos, hempty, r, b2, h => by
    rw [guessLoop] at h
    split at h
    · cases h
    · rename_i bb hs
      cases h
      intro c hc
      have hcp : c ≠ pos := fun he => hc (he ▸ hempty)
      have hput : ((put b pos n) c).value = (b c).value := by
        rw [put_value, if_neg hcp]
      rw [hstepP _ _ _ hs c (by rw [hput]; exact hc), hput]
    · rename_i bb hs
      have hbb : bb = put b pos n := hstepR _ _ hs
      rw [hbb, remove_put n hempty] at h
      exact guessLoop_preserves hstepR hstepP rest b pos hempty h

/-- `Solver.step` never changes a cell that was filled at its entry. -/
theorem step_preserves_prefilled : ∀ (fuel level : Nat) (b : Board) {r : Bool}
    {b2 : Board}, step fuel level b = some (r, b2) →
    ∀ c, (b c).value ≠ 0 → (b2 c).value = (b c).value := by
  intro fuel
  induction fuel with
  | zero => intro level b r b2 h; rw [step] at h; cases h
  | succ fuel ih =>
    intro level b r b2 h
    rw [step] at h
    split at h
    · cases h
      intro c _
      rfl
    · split at h
      · rename_i pn heq
        obtain ⟨hpos, hval, hmark, hn⟩ := findForced_sound heq
        have hput : ∀ c, (b c).value ≠ 0 →
            ((put b pn.1 pn.2) c).value = (b c).value := by
          intro c hc
          have hcp : c ≠ pn.1 := fun he => hc (he ▸ hval)
          rw [put_value, if_neg hcp]
        split at h
        · cases h
        · rename_i bb hrec
          cases h
          intro c hc
          rw [ih level _ hrec c (by rw [hput c hc]; exact hc), hput c hc]
        · rename_i bb hrec
          cases h
          intro c hc
          have hbb : bb = put b pn.1 pn.2 := step_false_restores fuel level _ hrec
          rw [remove_value]
          have hcp : c ≠ pn.1 := fun he => hc (he ▸ hval)
          rw [if_neg hcp, hbb, hput c hc]
      · split at h
        · cases h
          intro c _
          rfl
        · split at h
          · cases h
            intro c _
            rfl
          · rename_i pos hpos2
            have hsound := findMin_sound hpos2
            exact guessLoop_preserves
              (fun bb bb2 hb => step_false_restores fuel (level + 1) bb hb)
              (fun bb rr bb2 hb => ih (level + 1) bb hb)
              (possibleNumbers b pos) b pos hsound.2 h

/-! ## A candidate-free empty cell dooms the search -/

/-- If some empty cell has all nine occupancy marks positive, `step` can
never return true: the cell can never be filled, marks only grow along
`put`, and the MRV scan reports minimum zero. -/
theorem step_no_true_of_dead : ∀ (fuel level : Nat) (b : Board) (c : Pos),
    c ∈ allPositions → (b c).value = 0 → (∀ n ∈ nums19, 0 < (b c).marks n) →
    ∀ {b2 : Board}, step fuel level b ≠ some (true, b2) := by
  intro fuel
  induction fuel with
  | zero => intro level b c hc hval hm b2 h; rw [step] at h; cases h
  | succ fuel ih =>
    intro level b c hc hval hm b2 h
    rw [step] at h
    split at h
    · rename_i hfill
      exact (isFilled_iff.mp hfill c hc) hval
    · split at h
      · rename_i pn heq
        obtain ⟨hpos, hval2, hmark, hn⟩ := findForced_sound heq
        have hcp : c ≠ pn.1 := by
          intro he
          have h1 := hm pn.2 hn
          rw [he, hmark] at h1
          omega
        have hval3 : ((put b pn.1 pn.2) c).value = 0 := by
          rw [put_value, if_neg hcp]
          exact hval
        have hm3 : ∀ n ∈ nums19, 0 < ((put b pn.1 pn.2) c).marks n := by
          intro n hnm
          rw [put_marks]
          have h2 := hm n hnm
          have h3 : (0 : Int) ≤ (groupMult pn.1 c : Int) := Int.natCast_nonneg _
          split <;> omega
        split at h
        · cases h
        · rename_i bb hrec
          exact ih level (put b pn.1 pn.2) c hc hval3 hm3 hrec
        · simp at h
      · have hfree : freeCount b c = 0 :=
          freeCount_zero (fun n hn => by have := hm n hn; omega)
        have hzero : (findMin b).1 = 0 :=
          findMinAux_zero_of_dead allPositions hc hval hfree 10 none
        split at h
        · simp at h
        · rename_i hne
          exact hne hzero

/-! ## Fuel sufficiency: the recursion terminates -/

theorem guessLoop_isSome {stepF : Board → Option (Bool × Board)} {N : Nat}
    (hR : ∀ bb bb2, stepF bb = some (false, bb2) → bb2 = bb)
    (hS : ∀ bb, emptyCount bb < N → (stepF bb).isSome = true) :
    ∀ (cands : List Nat) (b : Board) (pos : Pos), pos ∈ allPositions →
    (b pos).value = 0 → emptyCount b ≤ N → (∀ n ∈ cands, n ∈ nums19) →
    (guessLoop stepF b pos cands).isSome = true
  | [], b, pos, _, _, _, _ => rfl
  | n :: rest, b, pos, hpos, hempty, hN, hc => by
    rw [guessLoop]
    have hn19 := mem_nums19.mp (hc n (List.mem_cons_self n rest))
    have hv : n ≠ 0 := by omega
    have hec : emptyCount (put b pos n) < N := by
      have h1 := put_emptyCount hpos hempty hv
      have h2 := emptyCount_pos hpos hempty
      omega
    have hsome := hS _ hec
    split
    · rename_i heq
      rw [heq] at hsome
      simp at hsome
    · rfl
    · rename_i bb heq
      have hbb : bb = put b pos n := hR _ _ heq
      rw [hbb, remove_put n hempty]
      exact guessLoop_isSome hR hS rest b pos hpos hempty hN
        (fun m hm => hc m (List.mem_cons_of_mem n hm))

/-- With fuel exceeding the number of empty cells, `step` always returns a
result: the recursion terminates. -/
theorem step_isSome : ∀ (fuel level : Nat) (b : Board), emptyCount b < fuel →
    (step fuel level b).isSome = true := by
  intro fuel
  induction fuel with
  | zero => intro level b h; omega
  | succ fuel ih =>
    intro level b hfuel
    rw [step]
    split
    · rfl
    · split
      · rename_i pn heq
        obtain ⟨hpos, hval, hmark, hn⟩ := findForced_sound heq
        have hv0 : pn.2 ≠ 0 := by have := mem_nums19.mp hn; omega
        have hec : emptyCount (put b pn.1 pn.2) < fuel := by
          have h1 := put_emptyCount hpos hval hv0
          have h2 := emptyCount_pos hpos hval
          omega
        have hsome := ih level (put b pn.1 pn.2) hec
        split
        · rename_i heq2
          rw [heq2] at hsome
          simp at hsome
        · rfl
        · rfl
      · split
        · rfl
        · split
          · rfl
          · rename_i pos hpos2
            have hsound := findMin_sound hpos2
            exact guessLoop_isSome
              (fun bb bb2 hb => step_false_restores fuel (level + 1) bb hb)
              (fun bb hbb => ih (level + 1) bb hbb)
              (possibleNumbers b pos) b pos hsound.1 hsound.2 (by omega)
              (fun m hm => (mem_possibleNumbers.mp hm).1)

/-! ## Claims C1, C4 and C10 -/

/-- A board with an empty cell all of whose marks are positive makes the
search fail and restores the board: no forced move or guess can fill that
cell, so no branch reaches a filled grid. -/
theorem solve_dead (b : Board) (c : Pos) (hc : c ∈ allPositions)
    (hval : (b c).value = 0) (hm : ∀ n ∈ nums19, 0 < (b c).marks n) :
    solve b = some (false, b) := by
  have hns : (step 82 0 b).isSome = true :=
    step_isSome 82 0 b (by have := emptyCount_le (b := b); omega)
  cases hstep : step 82 0 b with
  | none => rw [hstep] at hns; simp at hns
  | some r =>
    rcases r with ⟨tf, b2⟩
    cases tf
    · unfold solve
      rw [hstep, step_false_restores 82 0 b hstep]
    · exact absurd hstep (step_no_true_of_dead 82 0 b c hc hval hm)

/-- A filled board makes `step` (and hence `solve`) return true at once,
board unchanged: the `is_filled` test is the first thing `step` does. -/
theorem step_filled (fuel level : Nat) (b : Board) (h : isFilled b = true) :
    step (fuel + 1) level b = some (true, b) := by
  rw [step, if_pos h]

/-- `solve` on a filled board: true immediately, board unchanged. -/
theorem solve_filled (b : Board) (h : isFilled b = true) :
    solve b = some (true, b) := by
  unfold solve
  exact step_filled 81 0 b h

/-- The setup pass never changes any cell's value, so it preserves
filledness. -/
theorem isFilled_setup (b : Board) : isFilled (setup b) = isFilled b := by
  unfold isFilled
  exact congrArg (List.all allPositions) (funext fun p => by rw [setup_value])

/-- Claim C4: whenever `solve()` returns false, the grid is exactly the one
it was handed — no mutation survives a failing call. -/
theorem c4_false_restores (b : Board) {b2 : Board}
    (h : solve b = some (false, b2)) : b2 = b :=
  step_false_restores 82 0 b h

/-- On `stuckBoard` the solver fails immediately (its cell `(0,0)` is empty
with every mark set), leaving the grid untouched. -/
theorem stuck_solve_eq : solve stuckBoard = some (false, stuckBoard) :=
  solve_dead stuckBoard ⟨0, 0⟩ (by decide) (by decide) (by decide)

/-- Claim C4 witness. -/
theorem c4_false_restores_witness :
    (solve stuckBoard).map Prod.snd = some stuckBoard := by
  rw [stuck_solve_eq]
  exact congrArg some (c4_false_restores stuckBoard stuck_solve_eq)

/-- Claim C10: `solve()` never changes a pre-filled cell, whether it returns
true or false. -/
theorem c10_prefilled_preserved (b : Board) (r : Bool) (b2 : Board) (c : Pos)
    (h : solve b = some (r, b2)) (hc : (b c).value ≠ 0) :
    (b2 c).value = (b c).value :=
  step_preserves_prefilled 82 0 b h c hc

/-- Claim C10 witness: the pre-filled `5` at `(8,8)` survives the failing
search. -/
theorem c10_prefilled_preserved_witness :
    (stuckBoard ⟨8, 8⟩).value ≠ 0 ∧
    solve stuckBoard = some (false, stuckBoard) ∧
    (stuckBoard ⟨8, 8⟩).value = (stuckBoard ⟨8, 8⟩).value :=
  ⟨by decide, stuck_solve_eq,
   c10_prefilled_preserved stuckBoard false stuckBoard ⟨8, 8⟩
     stuck_solve_eq (by decide)⟩

/-- Claim C1 (corrected): on a grid that violates uniqueness *and* has, after
setup, an empty cell with every candidate blocked, `solve()` terminates with
false and leaves the grid unchanged.  (The unqualified claim is false: see
the counterexample, a fully pre-filled invalid grid on which `solve()`
returns true immediately.) -/
theorem c1_invalid_initial_unsolvable (b : Board) (c : Pos)
    (hviol : verify b false ≠ "valid")
    (hc : c ∈ allPositions) (hval : ((setup b) c).value = 0)
    (hm : ∀ n ∈ nums19, 0 < ((setup b) c).marks n) :
    solve (setup b) = some (false, setup b) :=
  solve_dead (setup b) c hc hval hm

/-- Claim C1 witness: `c1Board` has two `5`s in row 8 (an initial violation)
and its cell `(0,8)` sees every digit, so the solver reports failure.  The
facts about the set-up grid are derived through `setup_value` and
`marksSynced_setup` from the flat loaded grid. -/
theorem c1_invalid_initial_unsolvable_witness :
    verify c1Board false ≠ "valid" ∧
    ((setup c1Board) ⟨0, 8⟩).value = 0 ∧
    (∀ n ∈ nums19, 0 < ((setup c1Board) ⟨0, 8⟩).marks n) ∧
    solve (setup c1Board) = some (false, setup c1Board) := by
  have hval : ((setup c1Board) ⟨0, 8⟩).value = 0 := by
    rw [setup_value]
    decide
  have hm : ∀ n ∈ nums19, 0 < ((setup c1Board) ⟨0, 8⟩).marks n := by
    have hM : marksSynced (setup c1Board) := marksSynced_setup (by decide)
    have hflat : ∀ n ∈ nums19, 0 < tcount (fun q => (c1Board q).value) ⟨0, 8⟩ n := by
      decide
    intro n hn
    rw [hM ⟨0, 8⟩ (by decide) n hn,
      tcount_congr (fun q => setup_value c1Board q) ⟨0, 8⟩ n]
    exact_mod_cast hflat n hn
  exact ⟨by decide, hval, hm,
    c1_invalid_initial_unsolvable c1Board ⟨0, 8⟩ (by decide) (by decide) hval hm⟩

/-- The fully pre-filled all-ones board: `is_filled` holds at entry, so the
search returns true at once, grid unchanged. -/
theorem allOnes_solve_eq : solve (setup allOnes) = some (true, setup allOnes) :=
  solve_filled _ (by rw [isFilled_setup]; decide)

/-- Claim C1 counterexample: the all-ones grid violates uniqueness (two `1`s
in a row), yet `solve()` returns true, not false. -/
theorem c1_counterexample :
    verify allOnes false ≠ "valid" ∧
    (solve (setup allOnes)).map Prod.fst = some true := by
  refine ⟨by decide, ?_⟩
  rw [allOnes_solve_eq]
  rfl

/-! ## Soundness: every placement the search makes is legal -/

theorem sameGroup_symm {p q : Pos} (h : sameGroup p q) : sameGroup q p := by
  rcases h with hb | hr | hc
  · exact Or.inl ⟨hb.1.symm, hb.2.symm⟩
  · exact Or.inr (Or.inl hr.symm)
  · exact Or.inr (Or.inr hc.symm)

/-- Putting a number whose mark is clear at an empty cell keeps the board
free of uniqueness violations. -/
theorem groupsOk_put {b : Board} (hok : groupsOk b) (hM : marksSynced b)
    {p : Pos} (hp : p ∈ allPositions) (hempty : (b p).value = 0)
    {v : Nat} (hv : v ∈ nums19) (hmark : (b p).marks v = 0) :
    groupsOk (put b p v) := by
  have hno : ∀ d ∈ allPositions, d ≠ p → sameGroup d p → (b d).value ≠ v :=
    (marksSynced_apply hM hp hv hempty).mp hmark
  intro c hc d hd hne hg
  by_cases hcp : c = p
  · subst hcp
    right
    have hdp : d ≠ c := fun he => hne he.symm
    rw [put_value, if_pos rfl, put_value, if_neg hdp]
    exact fun he => hno d hd hdp (sameGroup_symm hg) he.symm
  · rw [put_value, if_neg hcp]
    by_cases hdp : d = p
    · subst hdp
      by_cases hzero : (b c).value = 0
      · exact Or.inl hzero
      · right
        rw [put_value, if_pos rfl]
        exact hno c hc hcp hg
    · rw [put_value, if_neg hdp]
      exact hok c hc d hd hne hg

theorem valuesInRange_put {b : Board} (hle : valuesInRange b) {p : Pos}
    {v : Nat} (hv : v ≤ 9) : valuesInRange (put b p v) := by
  intro c hc
  rw [put_value]
  by_cases hcp : c = p
  · rw [if_pos hcp]; exact hv
  · rw [if_neg hcp]; exact hle c hc

theorem searchInv_put {b : Board} (hI : searchInv b) {p : Pos}
    (hp : p ∈ allPositions) (hempty : (b p).value = 0)
    {v : Nat} (hv : v ∈ nums19) (hmark : (b p).marks v = 0) :
    searchInv (put b p v) :=
  ⟨marksSynced_put hI.1 (mem_allPositions.mp hp) hempty hv,
   groupsOk_put hI.2.1 hI.1 hp hempty hv hmark,
   valuesInRange_put hI.2.2 (mem_nums19.mp hv).2⟩

/-- The candidate loop preserves the invariant into any true result. -/
theorem guessLoop_true {stepF : Board → Option (Bool × Board)}
    (hR : ∀ bb bb2, stepF bb = some (false, bb2) → bb2 = bb)
    (hT : ∀ bb bb2, searchInv bb → stepF bb = some (true, bb2) →
      searchInv bb2 ∧ isFilled bb2 = true) :
    ∀ (cands : List Nat) (b : Board) (pos : Pos), searchInv b →
    pos ∈ allPositions → (b pos).value = 0 →
    (∀ n ∈ cands, n ∈ nums19 ∧ (b pos).marks n = 0) →
    ∀ {b2 : Board}, guessLoop stepF b pos cands = some (true, b2) →
    searchInv b2 ∧ isFilled b2 = true
  | [], b, pos, _, _, _, _, b2, h => by
    rw [guessLoop] at h
    simp at h
  | n :: rest, b, pos, hI, hpos, hempty, hc, b2, h => by
    rw [guessLoop] at h
    split at h
    · cases h
    · rename_i bb hs
      cases h
      have hn := hc n (List.mem_cons_self n rest)
      exact hT _ _ (searchInv_put hI hpos hempty hn.1 hn.2) hs
    · rename_i bb hs
      have hbb : bb = put b pos n := hR _ _ hs
      rw [hbb, remove_put n hempty] at h
      exact guessLoop_true hR hT rest b pos hI hpos hempty
        (fun m hm => hc m (List.mem_cons_of_mem n hm)) h

/-- When `step` returns true, the board is completely filled and still
satisfies the search invariant: the solution is legal. -/
theorem step_true_inv : ∀ (fuel level : Nat) (b : Board), searchInv b →
    ∀ {b2 : Board}, step fuel level b = some (true, b2) →
    searchInv b2 ∧ isFilled b2 = true := by
  intro fuel
  induction fuel with
  | zero => intro level b _ b2 h; rw [step] at h; cases h
  | succ fuel ih =>
    intro level b hI b2 h
    rw [step] at h
    split at h
    · rename_i hfill
      cases h
      exact ⟨hI, hfill⟩
    · split at h
      · rename_i pn heq
        obtain ⟨hpos, hval, hmark, hn⟩ := findForced_sound heq
        split at h
        · cases h
        · rename_i bb hrec
          cases h
          exact ih level (put b pn.1 pn.2) (searchInv_put hI hpos hval hn hmark) hrec
        · simp at h
      · split at h
        · simp at h
        · split at h
          · simp at h
          · rename_i pos hpos2
            have hsound := findMin_sound hpos2
            exact guessLoop_true
              (fun bb bb2 hb => step_false_restores fuel (level + 1) bb hb)
              (fun bb bb2 hb hs => ih (level + 1) bb hb hs)
              (possibleNumbers b pos) b pos hI hsound.1 hsound.2
              (fun m hm => mem_possibleNumbers.mp hm) h

/-! ## The checker: the source loops refine the documented scan -/

theorem find?_congr {p q : α → Bool} : ∀ {l : List α},
    (∀ x ∈ l, p x = q x) → l.find? p = l.find? q
  | [], _ => rfl
  | x :: rest, h => by
    have hx := h x (List.mem_cons_self x rest)
    by_cases hp : p x = true
    · rw [List.find?_cons_of_pos _ hp, List.find?_cons_of_pos _ (hx ▸ hp)]
    · rw [List.find?_cons_of_neg _ hp, List.find?_cons_of_neg _ (hx ▸ hp)]
      exact find?_congr (fun y hy => h y (List.mem_cons_of_mem x hy))

theorem missScan_eq_find (seen : Nat → Bool) (mkMiss : Nat → String) :
    ∀ (nums : List Nat),
    missScan seen mkMiss nums = (nums.find? fun n => !(seen n)).map mkMiss
  | [] => rfl
  | n :: rest => by
    rw [missScan]
    by_cases hs : seen n = true
    · rw [if_pos hs, List.find?_cons_of_neg _ (by simp [hs]),
        missScan_eq_find seen mkMiss rest]
    · rw [if_neg hs, List.find?_cons_of_pos _ (by simp [Bool.not_eq_true] at hs; simp [hs])]
      rfl

/-- The duplicate fold of `verify` agrees with the specification's
first-repeated-value description, and on success its checklist registers
exactly the seen and group values. -/
theorem markGroup_spec (b : Board) (mkDup : Nat → String) :
    ∀ (cells : List Pos) (seen : Nat → Bool) (seenL : List Nat),
    (∀ n, seen n = true ↔ n ∈ seenL) →
    (∃ v, specFirstDup b cells seenL = some v ∧
      markGroup b mkDup cells seen = Except.error (mkDup v)) ∨
    (specFirstDup b cells seenL = none ∧ ∃ seen2,
      markGroup b mkDup cells seen = Except.ok seen2 ∧
      ∀ n, seen2 n = true ↔ (n ∈ seenL ∨ ∃ p ∈ cells, (b p).value = n ∧ n ≠ 0))
  | [], seen, seenL, hinv =>
    Or.inr ⟨rfl, seen, rfl, fun n => by simp [hinv n]⟩
  | p :: rest, seen, seenL, hinv => by
    rw [markGroup, specFirstDup]
    by_cases hv : (b p).value = 0
    · rw [if_pos hv, if_pos hv]
      rcases markGroup_spec b mkDup rest seen seenL hinv with
        ⟨v, hsp, hmk⟩ | ⟨hsp, seen2, hmk, hiff⟩
      · exact Or.inl ⟨v, hsp, hmk⟩
      · refine Or.inr ⟨hsp, seen2, hmk, fun n => ?_⟩
        rw [hiff n]
        constructor
        · rintro (h | ⟨q, hq, hval, hn0⟩)
          · exact Or.inl h
          · exact Or.inr ⟨q, List.mem_cons_of_mem p hq, hval, hn0⟩
        · rintro (h | ⟨q, hq, hval, hn0⟩)
          · exact Or.inl h
          · rcases List.mem_cons.mp hq with he | hq2
            · subst he
              rw [hv] at hval
              exact absurd hval.symm hn0
            · exact Or.inr ⟨q, hq2, hval, hn0⟩
    · rw [if_neg hv, if_neg hv]
      by_cases hseen : seen ((b p).value) = true
      · rw [if_pos hseen, if_pos ((hinv _).mp hseen)]
        exact Or.inl ⟨(b p).value, rfl, rfl⟩
      · rw [if_neg hseen, if_neg (fun hm => hseen ((hinv _).mpr hm))]
        have hinv2 : ∀ n, (if n = (b p).value then true else seen n) = true ↔
            n ∈ (b p).value :: seenL := by
          intro n
          by_cases hn : n = (b p).value
          · simp [hn]
          · simp [hn, hinv n, List.mem_cons]
        rcases markGroup_spec b mkDup rest _ ((b p).value :: seenL) hinv2 with
          ⟨v, hsp, hmk⟩ | ⟨hsp, seen2, hmk, hiff⟩
        · exact Or.inl ⟨v, hsp, hmk⟩
        · refine Or.inr ⟨hsp, seen2, hmk, fun n => ?_⟩
          rw [hiff n]
          constructor
          · rintro (h | ⟨q, hq, hval, hn0⟩)
            · rcases List.mem_cons.mp h with he | h2
              · subst he
                exact Or.inr ⟨p, List.mem_cons_self p rest, rfl, hv⟩
              · exact Or.inl h2
            · exact Or.inr ⟨q, List.mem_cons_of_mem p hq, hval, hn0⟩
          · rintro (h | ⟨q, hq, hval, hn0⟩)
            · exact Or.inl (List.mem_cons_of_mem _ h)
            · rcases List.mem_cons.mp hq with he | hq2
              · subst he
                refine Or.inl ?_
                rw [← hval]
                exact List.mem_cons_self _ _
              · exact Or.inr ⟨q, hq2, hval, hn0⟩

/-- One group check of the source equals the specified group violation. -/
theorem checkGroup_eq_specViolation (b : Board) (cm : Bool) (g : GroupId) :
    checkGroup b cm g.cells g.dupMsg g.missMsg = specViolation b cm g := by
  unfold checkGroup specViolation
  rcases markGroup_spec b g.dupMsg g.cells (fun _ => false) [] (by simp) with
    ⟨v, hsp, hmk⟩ | ⟨hsp, seen2, hmk, hiff⟩
  · rw [hmk, hsp]
  · rw [hmk, hsp]
    cases cm
    · rfl
    · show missScan seen2 g.missMsg nums19 = (specMissing b g.cells).map g.missMsg
      rw [missScan_eq_find]
      unfold specMissing
      have hpt : ∀ n ∈ nums19, (!(seen2 n)) =
          (!(g.cells.any fun p => (b p).value == n)) := by
        intro n hn
        have hn0 : n ≠ 0 := by have := mem_nums19.mp hn; omega
        have hs2 : seen2 n = (g.cells.any fun p => (b p).value == n) := by
          cases hsn : seen2 n
          · cases han : (g.cells.any fun p => (b p).value == n)
            · rfl
            · exfalso
              obtain ⟨p, hp, hval⟩ := List.any_eq_true.mp han
              have : seen2 n = true := (hiff n).mpr
                (Or.inr ⟨p, hp, Nat.beq_eq ▸ (by simpa using hval), hn0⟩)
              rw [hsn] at this
              cases this
          · cases han : (g.cells.any fun p => (b p).value == n)
            · exfalso
              rcases (hiff n).mp hsn with h | ⟨p, hp, hval, _⟩
              · cases h
              · have : (g.cells.any fun p => (b p).value == n) = true :=
                  List.any_eq_true.mpr ⟨p, hp, by simp [hval]⟩
                rw [han] at this
                cases this
            · rfl
        rw [hs2]
      rw [find?_congr hpt]

theorem checkBoxes_eq (b : Board) (cm : Bool) : ∀ (L : List (Nat × Nat)),
    checkBoxes b cm L =
      (L.map fun s => GroupId.box s.1 s.2).findSome? (specViolation b cm)
  | [] => rfl
  | s :: rest => by
    rw [checkBoxes, List.map_cons, List.findSome?_cons]
    have h : checkGroup b cm (boxCells s.1 s.2) (boxDupMsg s.1 s.2) (boxMissMsg s.1 s.2)
        = specViolation b cm (GroupId.box s.1 s.2) :=
      checkGroup_eq_specViolation b cm (GroupId.box s.1 s.2)
    rw [h]
    cases specViolation b cm (GroupId.box s.1 s.2)
    · exact checkBoxes_eq b cm rest
    · rfl

theorem checkRows_eq (b : Board) (cm : Bool) : ∀ (L : List Nat),
    checkRows b cm L = (L.map GroupId.row).findSome? (specViolation b cm)
  | [] => rfl
  | i :: rest => by
    rw [checkRows, List.map_cons, List.findSome?_cons]
    have h : checkGroup b cm (rowCells i) (rowDupMsg i) (rowMissMsg i)
        = specViolation b cm (GroupId.row i) :=
      checkGroup_eq_specViolation b cm (GroupId.row i)
    rw [h]
    cases specViolation b cm (GroupId.row i)
    · exact checkRows_eq b cm rest
    · rfl

theorem checkCols_eq (b : Board) (cm : Bool) : ∀ (L : List Nat),
    checkCols b cm L = (L.map GroupId.col).findSome? (specViolation b cm)
  | [] => rfl
  | j :: rest => by
    rw [checkCols, List.map_cons, List.findSome?_cons]
    have h : checkGroup b cm (colCells j) (colDupMsg j) (colMissMsg j)
        = specViolation b cm (GroupId.col j) :=
      checkGroup_eq_specViolation b cm (GroupId.col j)
    rw [h]
    cases specViolation b cm (GroupId.col j)
    · exact checkCols_eq b cm rest
    · rfl

/-- The translated `Board.verify` equals the specification-level checker. -/
theorem verify_eq_verifySpec (b : Board) (cm : Bool) :
    verify b cm = verifySpec b cm := by
  unfold verify verifySpec specGroups
  rw [checkBoxes_eq, checkRows_eq, checkCols_eq, List.findSome?_append,
    List.findSome?_append]
  cases (boxStarts.map fun s => GroupId.box s.1 s.2).findSome? (specViolation b cm)
  · cases (nums9.map GroupId.row).findSome? (specViolation b cm)
    · cases (nums9.map GroupId.col).findSome? (specViolation b cm)
      · rfl
      · rfl
    · rfl
  · rfl

/-- The duplicate scan only reads cell values. -/
theorem specFirstDup_congr {b b2 : Board} (h : ∀ p, (b p).value = (b2 p).value) :
    ∀ (cells : List Pos) (seen : List Nat),
      specFirstDup b cells seen = specFirstDup b2 cells seen
  | [], _ => rfl
  | p :: rest, seen => by
    simp only [specFirstDup, h p]
    by_cases h0 : (b2 p).value = 0
    · rw [if_pos h0, if_pos h0]
      exact specFirstDup_congr h rest seen
    · rw [if_neg h0, if_neg h0]
      by_cases hmem : (b2 p).value ∈ seen
      · rw [if_pos hmem, if_pos hmem]
      · rw [if_neg hmem, if_neg hmem]
        exact specFirstDup_congr h rest _

/-- The missing-number scan only reads cell values. -/
theorem specMissing_congr {b b2 : Board} (h : ∀ p, (b p).value = (b2 p).value)
    (g : List Pos) : specMissing b g = specMissing b2 g := by
  unfold specMissing
  have hpred : (fun n => !(g.any fun p => (b p).value == n)) =
      (fun n => !(g.any fun p => (b2 p).value == n)) := by
    funext n
    have hc : (fun p => (b p).value == n) = (fun p => (b2 p).value == n) :=
      funext fun p => by rw [h p]
    rw [hc]
  rw [hpred]

/-- The whole checker only reads cell values. -/
theorem verifySpec_congr {b b2 : Board} (h : ∀ p, (b p).value = (b2 p).value)
    (cm : Bool) : verifySpec b cm = verifySpec b2 cm := by
  unfold verifySpec
  have hv : specViolation b cm = specViolation b2 cm := by
    funext g
    unfold specViolation
    rw [specFirstDup_congr h g.cells [], specMissing_congr h g.cells]
  rw [hv]

/-- The setup pass changes no value, so it does not change the checker's
verdict. -/
theorem verify_setup (b : Board) (cm : Bool) :
    verify (setup b) cm = verify b cm := by
  rw [verify_eq_verifySpec, verify_eq_verifySpec]
  exact verifySpec_congr (fun p => setup_value b p) cm

/-! ## A filled invariant-satisfying board passes `check(true)` -/

theorem specFirstDup_none (b : Board) : ∀ (cells : List Pos) (seenL : List Nat),
    List.Pairwise (fun p q => (b p).value ≠ (b q).value) cells →
    (∀ w ∈ seenL, ∀ q ∈ cells, (b q).value ≠ w) →
    specFirstDup b cells seenL = none
  | [], _, _, _ => rfl
  | p :: rest, seenL, hpw, hseen => by
    rw [specFirstDup]
    obtain ⟨hp, hrest⟩ := List.pairwise_cons.mp hpw
    by_cases hv : (b p).value = 0
    · rw [if_pos hv]
      exact specFirstDup_none b rest seenL hrest
        (fun w hw q hq => hseen w hw q (List.mem_cons_of_mem p hq))
    · rw [if_neg hv,
        if_neg (fun hm => hseen _ hm p (List.mem_cons_self p rest) rfl)]
      refine specFirstDup_none b rest _ hrest ?_
      intro w hw q hq
      rcases List.mem_cons.mp hw with he | hw2
      · subst he
        exact (hp q hq).symm
      · exact hseen w hw2 q (List.mem_cons_of_mem p hq)

theorem specMissing_none (b : Board) (cells : List Pos) (hlen : cells.length = 9)
    (hnd : (cells.map fun p => (b p).value).Nodup)
    (hrange : ∀ p ∈ cells, 1 ≤ (b p).value ∧ (b p).value ≤ 9) :
    specMissing b cells = none := by
  unfold specMissing
  rw [List.find?_eq_none]
  intro n hn
  have hsub : (cells.map fun p => (b p).value).toFinset ⊆ Finset.Icc 1 9 := by
    intro x hx
    rw [List.mem_toFinset] at hx
    obtain ⟨p, hp, hval⟩ := List.mem_map.mp hx
    rw [Finset.mem_Icc]
    rw [← hval]
    exact hrange p hp
  have hcard : (Finset.Icc 1 9).card ≤ (cells.map fun p => (b p).value).toFinset.card := by
    rw [List.toFinset_card_of_nodup hnd, List.length_map, hlen, Nat.card_Icc]
  have heq : (cells.map fun p => (b p).value).toFinset = Finset.Icc 1 9 :=
    Finset.eq_of_subset_of_card_le hsub hcard
  have hmem : n ∈ (cells.map fun p => (b p).value).toFinset := by
    rw [heq, Finset.mem_Icc]
    have := mem_nums19.mp hn
    omega
  rw [List.mem_toFinset] at hmem
  obtain ⟨p, hp, hval⟩ := List.mem_map.mp hmem
  simp only [Bool.not_eq_true', Bool.not_eq_false]
  exact List.any_eq_true.mpr ⟨p, hp, by simp [hval]⟩

theorem specGroups_cells_pairwise : ∀ g ∈ specGroups,
    List.Pairwise (fun p q => p ≠ q ∧ sameGroup p q ∧
      p ∈ allPositions ∧ q ∈ allPositions) g.cells := by
  decide

theorem specGroups_cells_length : ∀ g ∈ specGroups, g.cells.length = 9 := by
  decide

theorem specGroups_cells_onGrid : ∀ g ∈ specGroups, ∀ p ∈ g.cells,
    p ∈ allPositions := by
  decide

/-- Complete and invariant-satisfying means `check(true)` reports success. -/
theorem verify_valid {b : Board} (hI : searchInv b) (hfill : isFilled b = true) :
    verify b true = "valid" := by
  rw [verify_eq_verifySpec]
  unfold verifySpec
  have hall : ∀ g ∈ specGroups, specViolation b true g = none := by
    intro g hg
    have hpw := specGroups_cells_pairwise g hg
    have hlen := specGroups_cells_length g hg
    have hgrid := specGroups_cells_onGrid g hg
    have hvalne : List.Pairwise (fun p q => (b p).value ≠ (b q).value) g.cells := by
      refine hpw.imp ?_
      rintro p q ⟨hne, hsg, hp, hq⟩
      rcases hI.2.1 p hp q hq hne hsg with h0 | hne2
      · exact absurd h0 (isFilled_iff.mp hfill p hp)
      · exact hne2
    unfold specViolation
    rw [specFirstDup_none b g.cells [] hvalne
      (fun w hw => absurd hw (List.not_mem_nil w))]
    have hmiss : specMissing b g.cells = none := by
      refine specMissing_none b g.cells hlen (List.pairwise_map.mpr hvalne) ?_
      intro p hp
      have h1 := isFilled_iff.mp hfill p (hgrid p hp)
      have h2 := hI.2.2 p (hgrid p hp)
      omega
    rw [hmiss]
    rfl
  rw [List.findSome?_eq_none_iff.mpr hall]

/-! ## Claims C5 and C9 -/

/-- Claim C9: `Board.verify` validates the groups in the fixed documented
order — boxes row-major, then rows, then columns, duplicates before missing
numbers within a group, missing numbers only when `check_missing` is set —
returning the first violation's description, else `"valid"`. -/
theorem c9_verify_first_violation (b : Board) (cm : Bool) :
    verify b cm = verifySpec b cm :=
  verify_eq_verifySpec b cm

/-- Claim C5 (corrected): for a loader-populated grid (digit values, zero
marks) whose initial arrangement does **not** violate uniqueness, if
`solve()` over the set-up grid returns true then `check(true)` on the
resulting grid returns `"valid"`.  (Without the no-initial-violation proviso
the claim fails — see the counterexample.) -/
theorem c5_solution_valid (b : Board) (b2 : Board)
    (hz : marksZero b) (hle : valuesInRange b) (hok : groupsOk b)
    (h : solve (setup b) = some (true, b2)) : verify b2 true = "valid" := by
  have hokS : groupsOk (setup b) := by
    intro c hc d hd hne hg
    rw [setup_value, setup_value]
    exact hok c hc d hd hne hg
  have hleS : valuesInRange (setup b) := by
    intro c hc
    rw [setup_value]
    exact hle c hc
  have hI : searchInv (setup b) := ⟨marksSynced_setup hz, hokS, hleS⟩
  obtain ⟨hI2, hfill⟩ := step_true_inv 82 0 (setup b) hI h
  exact verify_valid hI2 hfill

/-- A complete valid grid: the solver accepts it unchanged. -/
theorem validFull_solve_eq :
    solve (setup validFull) = some (true, setup validFull) :=
  solve_filled _ (by rw [isFilled_setup]; decide)

/-- Claim C5 witness. -/
theorem c5_solution_valid_witness :
    marksZero validFull ∧ valuesInRange validFull ∧ groupsOk validFull ∧
    solve (setup validFull) = some (true, setup validFull) ∧
    verify (setup validFull) true = "valid" :=
  ⟨by decide, by decide, by decide, validFull_solve_eq,
   c5_solution_valid validFull (setup validFull) (by decide) (by decide)
     (by decide) validFull_solve_eq⟩

/-- Claim C5 counterexample: the all-ones grid is loader-populated, `solve()`
returns true on it, and `check(true)` on the result reports a duplicate, not
`"valid"`. -/
theorem c5_counterexample :
    marksZero allOnes ∧ valuesInRange allOnes ∧
    (solve (setup allOnes)).map Prod.fst = some true ∧
    (solve (setup allOnes)).map (fun r => verify r.2 true) ≠ some "valid" := by
  refine ⟨by decide, by decide, ?_, ?_⟩
  · rw [allOnes_solve_eq]
    rfl
  · rw [allOnes_solve_eq]
    simp only [Option.map_some', ne_eq, Option.some.injEq]
    rw [verify_setup]
    decide

/-! ## The forced-move scan refines its specification (claim C7) -/

theorem specCandidates_eq (b : Board) (g : List Pos) (n : Nat) :
    specCandidates b g n = legalSpots b g n := rfl

/-- `firstSingle` is: find the first number with exactly one candidate, and
pair it with that candidate. -/
theorem firstSingle_eq_spec (b : Board) (g : List Pos) : ∀ (nums : List Nat),
    firstSingle b g nums =
      (nums.find? fun n => (legalSpots b g n).length == 1).bind fun n =>
        ((legalSpots b g n).head?).map fun p => (p, n)
  | [] => rfl
  | n :: rest => by
    rw [firstSingle]
    cases hls : legalSpots b g n with
    | nil =>
      rw [List.find?_cons_of_neg _ (by simp [hls]), firstSingle_eq_spec b g rest]
    | cons p qs =>
      cases qs with
      | nil =>
        rw [List.find?_cons_of_pos _ (by simp [hls])]
        simp [hls]
      | cons q2 qs2 =>
        rw [List.find?_cons_of_neg _ (by simp [hls]), firstSingle_eq_spec b g rest]

theorem scanGroups_eq_findSome (b : Board) : ∀ (Ls : List (List Pos)),
    scanGroups b Ls = Ls.findSome? (fun g => firstSingle b g nums19)
  | [] => rfl
  | g :: rest => by
    rw [scanGroups, List.findSome?_cons]
    cases firstSingle b g nums19
    · exact scanGroups_eq_findSome b rest
    · rfl

/-- The translated forced-move scan equals the specification-level one. -/
theorem findForced_eq_spec (b : Board) : findForced b = findForcedSpec b := by
  unfold findForced findForcedSpec forcedNumberSpec
  rw [scanGroups_eq_findSome]
  congr 1
  funext g
  rw [firstSingle_eq_spec]
  simp only [specCandidates_eq]

/-- Claim C7: the forced-move scan follows the documented fixed order (all
boxes row-major, then rows, then columns, first number with a unique legal
spot), and a found forced move is assigned, recursed upon at the *same*
level, and on failure retracted with false returned immediately. -/
theorem c7_forced_move :
    (∀ b : Board, findForced b = findForcedSpec b) ∧
    ∀ (fuel level : Nat) (b : Board) (pos : Pos) (n : Nat),
      isFilled b = false → findForcedSpec b = some (pos, n) →
      step (fuel + 1) level b =
        (match step fuel level (put b pos n) with
         | none => none
         | some (true, b2) => some (true, b2)
         | some (false, b2) => some (false, remove b2 pos)) := by
  refine ⟨findForced_eq_spec, ?_⟩
  intro fuel level b pos n hfill hforced
  rw [← findForced_eq_spec] at hforced
  rw [step, if_neg (by rw [hfill]; simp), hforced]

/-- Claim C7 witness: on `forcedBoard`, the very first group (box `(0,0)`)
forces `1` at `(2,2)`. -/
theorem c7_forced_move_witness :
    findForced forcedBoard = findForcedSpec forcedBoard ∧
    isFilled forcedBoard = false ∧
    findForcedSpec forcedBoard = some (⟨2, 2⟩, 1) ∧
    step 2 0 forcedBoard =
      (match step 1 0 (put forcedBoard ⟨2, 2⟩ 1) with
       | none => none
       | some (true, b2) => some (true, b2)
       | some (false, b2) => some (false, remove b2 ⟨2, 2⟩)) :=
  ⟨c7_forced_move.1 _, by decide, by decide,
   c7_forced_move.2 1 0 forcedBoard ⟨2, 2⟩ 1 (by decide) (by decide)⟩

/-! ## The guessed move refines its specification (claim C8) -/

theorem foldl_min_le (b : Board) : ∀ (L : List Pos) (a : Nat),
    L.foldl (fun m p => min m (freeCount b p)) a ≤ a
  | [], _ => Nat.le_refl _
  | p :: rest, a => by
    rw [List.foldl_cons]
    exact Nat.le_trans (foldl_min_le b rest _) (Nat.min_le_left _ _)

theorem freeCount_le (b : Board) (p : Pos) : freeCount b p ≤ 9 := by
  unfold freeCount
  omega

/-- The MRV fold in closed form: the minimum over the remaining empty cells,
and the first empty cell strictly improving on the incoming bound. -/
theorem findMinAux_eq (b : Board) : ∀ (L : List Pos) (mf : Nat) (mp : Option Pos),
    findMinAux b L (mf, mp) =
      ((L.filter fun p => (b p).value = 0).foldl (fun m p => min m (freeCount b p)) mf,
       if ((L.filter fun p => (b p).value = 0).foldl (fun m p => min m (freeCount b p)) mf) < mf
       then (L.filter fun p => (b p).value = 0).find?
         (fun p => freeCount b p == ((L.filter fun p => (b p).value = 0).foldl
           (fun m p => min m (freeCount b p)) mf))
       else mp)
  | [], mf, mp => by simp [findMinAux]
  | p :: rest, mf, mp => by
    rw [findMinAux]
    by_cases hv : (b p).value = 0
    · rw [if_pos hv, List.filter_cons_of_pos (by simp [hv]), List.foldl_cons]
      by_cases hlt : freeCount b p < mf
      · rw [if_pos hlt, findMinAux_eq b rest (freeCount b p) (some p)]
        have hmin : min mf (freeCount b p) = freeCount b p :=
          Nat.min_eq_right (Nat.le_of_lt hlt)
        rw [hmin]
        set m2 := (rest.filter fun p => (b p).value = 0).foldl
          (fun m p => min m (freeCount b p)) (freeCount b p) with hm2
        have hm2le : m2 ≤ freeCount b p := foldl_min_le b _ _
        have hm2lt : m2 < mf := Nat.lt_of_le_of_lt hm2le hlt
        rw [if_pos hm2lt]
        by_cases heq : freeCount b p = m2
        · rw [if_neg (by omega), List.find?_cons_of_pos _ (by simp [heq])]
        · have hlt2 : m2 < freeCount b p := by omega
          rw [if_pos hlt2, List.find?_cons_of_neg _ (by simp; omega)]
      · rw [if_neg hlt, findMinAux_eq b rest mf mp]
        have hmin : min mf (freeCount b p) = mf := Nat.min_eq_left (by omega)
        rw [hmin]
        set m2 := (rest.filter fun p => (b p).value = 0).foldl
          (fun m p => min m (freeCount b p)) mf with hm2
        by_cases hm2lt : m2 < mf
        · rw [if_pos hm2lt, if_pos hm2lt, List.find?_cons_of_neg _ (by simp; omega)]
        · rw [if_neg hm2lt, if_neg hm2lt]
    · rw [if_neg hv, List.filter_cons_of_neg (by simp [hv])]
      exact findMinAux_eq b rest mf mp

/-- The translated MRV scan equals the specification-level one. -/
theorem findMin_eq_spec (b : Board) : findMin b = (minFreeSpec b, minPosSpec b) := by
  simp only [findMin, minFreeSpec, minPosSpec, emptyCellsSpec]
  rw [findMinAux_eq]
  by_cases hlt : ((allPositions.filter fun p => (b p).value = 0).foldl
      (fun m p => min m (freeCount b p)) 10) < 10
  · rw [if_pos hlt]
  · rw [if_neg hlt]
    cases hE : allPositions.filter fun p => (b p).value = 0 with
    | nil => rfl
    | cons p rest =>
      exfalso
      apply hlt
      rw [hE, List.foldl_cons]
      have h1 := foldl_min_le b rest (min 10 (freeCount b p))
      have h2 := freeCount_le b p
      have h3 : min 10 (freeCount b p) ≤ freeCount b p := Nat.min_le_right _ _
      omega

theorem possibleNumbers_eq_spec (b : Board) (p : Pos) :
    possibleNumbers b p = possibleNumbersSpec b p := rfl

/-- Claim C8: when no forced move exists, the solver picks the first empty
cell (row-major) achieving the minimal number of remaining candidates;
minimum zero returns false with the board untouched; otherwise the ascending
legal candidates are tried by the assign / recurse at `level + 1` / retract
loop, which fails only after exhausting them. -/
theorem c8_guess :
    (∀ b : Board, findMin b = (minFreeSpec b, minPosSpec b)) ∧
    (∀ (b : Board) (p : Pos), possibleNumbers b p = possibleNumbersSpec b p) ∧
    ∀ (fuel level : Nat) (b : Board), isFilled b = false → findForced b = none →
      step (fuel + 1) level b =
        (if minFreeSpec b = 0 then some (false, b)
         else
           match minPosSpec b with
           | none => some (false, b)
           | some pos =>
             guessLoop (fun bd => step fuel (level + 1) bd) b pos
               (possibleNumbersSpec b pos)) := by
  refine ⟨findMin_eq_spec, possibleNumbers_eq_spec, ?_⟩
  intro fuel level b hfill hforced
  rw [step, if_neg (by rw [hfill]; simp), hforced, findMin_eq_spec b]
  exact rfl

/-- Claim C8 witness: the empty board has no forced move; the guess branch
selects `(0,0)` with all nine candidates. -/
theorem c8_guess_witness :
    findMin emptyBoard = (minFreeSpec emptyBoard, minPosSpec emptyBoard) ∧
    possibleNumbers emptyBoard ⟨0, 0⟩ = possibleNumbersSpec emptyBoard ⟨0, 0⟩ ∧
    isFilled emptyBoard = false ∧
    findForced emptyBoard = none ∧
    minFreeSpec emptyBoard = 9 ∧
    minPosSpec emptyBoard = some ⟨0, 0⟩ ∧
    step 2 0 emptyBoard =
      (if minFreeSpec emptyBoard = 0 then some (false, emptyBoard)
       else
         match minPosSpec emptyBoard with
         | none => some (false, emptyBoard)
         | some pos =>
           guessLoop (fun bd => step 1 (0 + 1) bd) emptyBoard pos
             (possibleNumbersSpec emptyBoard pos)) :=
  ⟨c8_guess.1 _, c8_guess.2.1 _ _, by decide, by decide, by decide, by decide,
   c8_guess.2.2 1 0 emptyBoard (by decide) (by decide)⟩

end Sudoku
